import Mathlib

/-!
# Hamiltonian cycle by backtracking (`backtracking/Hamiltonian_cycle.cpp`)

A shallow embedding of `isSafe`, `hamCycleUtil`, `hamCycle` and `resizeSolution`.

Conventions of the embedding.

* `std::vector<T>` is a `List T`; `int` is `Int` where the value can be the
  sentinel `-1` (path slots, vertices read from the path) and `Nat` for the
  position `pos`, which the program only ever counts upwards from `1`.
* An element access `xs[i]` outside `0 .. xs.size()-1` is undefined behaviour in
  C++.  Every access is bounds-checked here and the whole computation yields
  `none` as soon as one access is out of bounds.
* `graph` and `path` are passed by non-const reference.  Both travel through
  every function as a `Store`, and every function returns the store it leaves
  behind, so that "the call does not change X" is a statement about the result.
* `hamCycle` keeps its freshly allocated `int[V]` buffer in `int *path` and hands that
  variable on through `reinterpret_cast<std::vector<int> &>`.  Of the vector seen through
  the reference only the begin pointer is the buffer.  Element access uses nothing else, so
  in `isSafe` and `hamCycleUtil` the path is the sequence of the `V` slots.  The size of
  the vector is whatever the words stored behind `path` make it: it is an input of
  `hamCycle` here, next to the contents of the fresh buffer.  The capacity only decides
  whether `resize` and `push_back` work in place or on a copy, which does not change the
  vector that is returned.
-/

namespace Backtracking.HamiltonianCycle

/-- Number of vertices in the graph: `#define V 5`. -/
def V : Nat := 5

/-- The two objects the functions receive by reference. -/
structure Store where
  graph : List (List Bool)
  path : List Int
deriving DecidableEq

/-- Checked element read `xs[i]` with a signed index. -/
def vecGet {α : Type} (xs : List α) (i : Int) : Option α :=
  if i < 0 then none else xs[i.toNat]?

/-- Checked element write `xs[i] = x` with an index that is a position. -/
def vecSet {α : Type} (xs : List α) (i : Nat) (x : α) : Option (List α) :=
  if i < xs.length then some (xs.set i x) else none

/-- The matrix read `graph[u][v]`. -/
def graphAt (graph : List (List Bool)) (u v : Int) : Option Bool :=
  match vecGet graph u with
  | none => none
  | some row => vecGet row v

/-- The scan `for (int i = 0; i < pos; i++) if (path[i] == v) return false;` of `isSafe`,
run over the indices still to visit; `true` when the loop falls through. -/
def isSafeLoop (v : Int) (path : List Int) : List Nat → Option Bool
  | [] => some true
  | i :: rest =>
    match vecGet path (i : Int) with
    | none => none
    | some x => if x = v then some false else isSafeLoop v path rest

/-- Source function `isSafe(v, graph, path, pos)`. -/
def isSafe (v : Int) (s : Store) (pos : Nat) : Option (Bool × Store) :=
  match vecGet s.path ((pos : Int) - 1) with
  | none => none
  | some last =>
    match graphAt s.graph last v with
    | none => none
    | some e =>
      if e = false then some (false, s)
      else
        match isSafeLoop v s.path (List.range pos) with
        | none => none
        | some b => some (b, s)

/-- The candidates of `for (int v = 1; v < V; v++)`, in the order they are tried. -/
def candidates : List Int := (List.range' 1 (V - 1)).map Int.ofNat

/-- The candidate loop of `hamCycleUtil` at position `pos`, over the candidates still to
try; `recur` is the recursive call `hamCycleUtil(graph, path, pos + 1)`. -/
def tryVertices (recur : Store → Option (Bool × Store)) (pos : Nat) :
    List Int → Store → Option (Bool × Store)
  | [], s => some (false, s)
  | v :: vs, s =>
    match isSafe v s pos with
    | none => none
    | some (false, s1) => tryVertices recur pos vs s1
    | some (true, s1) =>
      match vecSet s1.path pos v with
      | none => none
      | some p2 =>
        match recur { s1 with path := p2 } with
        | none => none
        | some (true, s3) => some (true, s3)
        | some (false, s3) =>
          match vecSet s3.path pos (-1) with
          | none => none
          | some p4 => tryVertices recur pos vs { s3 with path := p4 }

/-- Body of `hamCycleUtil`, with the number of nested calls still allowed as first
argument (`none` when it is used up). -/
def hamCycleUtilAux : Nat → Store → Nat → Option (Bool × Store)
  | 0, _, _ => none
  | fuel + 1, s, pos =>
    if pos = V then
      match vecGet s.path ((pos : Int) - 1) with
      | none => none
      | some last =>
        match vecGet s.path 0 with
        | none => none
        | some first =>
          match graphAt s.graph last first with
          | none => none
          | some e => some (e == true, s)
    else
      tryVertices (fun s1 => hamCycleUtilAux fuel s1 (pos + 1)) pos candidates s

/-- Source function `hamCycleUtil(graph, path, pos)`.  A call at `pos <= V` nests at most
`V - pos` further calls, each one position higher, so `V + 1 - pos` levels are all it can
use; a call at `pos > V` is not given a result. -/
def hamCycleUtil (s : Store) (pos : Nat) : Option (Bool × Store) :=
  hamCycleUtilAux (V + 1 - pos) s pos

/-- Source function `resizeSolution(path)`: `path.resize(V); path.push_back(path[0]);`
The resized and extended vector is both what `path` holds afterwards and what is
returned. -/
def resizeSolution (path : List Int) : Option (List Int) :=
  let resized := path.take V ++ List.replicate (V - path.length) 0
  match vecGet resized 0 with
  | none => none
  | some x => some (resized ++ [x])

/-- The loop `for (int i = 0; i < V; i++) path[i] = -1;` of `hamCycle`. -/
def fillLoop : List Nat → List Int → Option (List Int)
  | [], path => some path
  | i :: rest, path =>
    match vecSet path i (-1) with
    | none => none
    | some p => fillLoop rest p

/-- The vector that `resizeSolution` receives from `hamCycle` through
`reinterpret_cast<std::vector<int> &>(path)`: its elements start at the buffer and it has
`size` of them, `size` being read from the words behind the variable `path`.  These are the
first `size` slots of the buffer; where `size` exceeds `V`, the elements behind the buffer
are left out, `resize(V)` being the first thing that happens to the vector. -/
def castVector (path : List Int) (size : Nat) : List Int :=
  path.take size

/-- Source function `hamCycle(graph)`, started on a buffer `raw` standing for the
indeterminate contents of `new int[V]`, with `size` the size of the vector that the cast
makes of `path`.  The result is the returned vector together with the graph as the call
leaves it. -/
def hamCycleOn (raw : List Int) (size : Nat) (graph : List (List Bool)) :
    Option (List Int × List (List Bool)) :=
  match fillLoop (List.range V) raw with
  | none => none
  | some p0 =>
    match vecSet p0 0 0 with
    | none => none
    | some p1 =>
      match hamCycleUtil { graph := graph, path := p1 } 1 with
      | none => none
      | some (false, s) => some ([], s.graph)
      | some (true, s) =>
        match resizeSolution (castVector s.path size) with
        | none => none
        | some r => some (r, s.graph)

/-- Source function `hamCycle(graph)`, with the fresh buffer holding zeros (the buffer is
overwritten before it is read) and `size` the size of the vector that the cast makes of
`path`. -/
def hamCycle (size : Nat) (graph : List (List Bool)) : Option (List Int × List (List Bool)) :=
  hamCycleOn (List.replicate V 0) size graph

/-- What a run of `hamCycleUtil` does that a caller can observe from outside: it enters a
call with a store and a position, and it assigns a value to a path slot. -/
inductive Event where
  | call (s : Store) (pos : Nat)
  | write (i : Nat) (x : Int)
deriving DecidableEq

/-- The candidate loop of `hamCycleUtil` as in `tryVertices`, returning next to its result
the events of the run in the order they happen. -/
def tryVerticesLog (recur : Store → Option (Bool × Store) × List Event) (pos : Nat) :
    List Int → Store → Option (Bool × Store) × List Event
  | [], s => (some (false, s), [])
  | v :: vs, s =>
    match isSafe v s pos with
    | none => (none, [])
    | some (false, s1) => tryVerticesLog recur pos vs s1
    | some (true, s1) =>
      match vecSet s1.path pos v with
      | none => (none, [])
      | some p2 =>
        match recur { s1 with path := p2 } with
        | (none, log) => (none, Event.write pos v :: log)
        | (some (true, s3), log) => (some (true, s3), Event.write pos v :: log)
        | (some (false, s3), log) =>
          match vecSet s3.path pos (-1) with
          | none => (none, Event.write pos v :: log)
          | some p4 =>
            (tryVerticesLog recur pos vs { s3 with path := p4 }).map id
              (fun rest => Event.write pos v :: log ++ Event.write pos (-1) :: rest)

/-- Body of `hamCycleUtil` as in `hamCycleUtilAux`, returning next to its result the events
of the run: the call itself first, then what its body does. -/
def hamCycleUtilLog : Nat → Store → Nat → Option (Bool × Store) × List Event
  | 0, s, pos => (none, [Event.call s pos])
  | fuel + 1, s, pos =>
    if pos = V then
      ((match vecGet s.path ((pos : Int) - 1) with
        | none => none
        | some last =>
          match vecGet s.path 0 with
          | none => none
          | some first =>
            match graphAt s.graph last first with
            | none => none
            | some e => some (e == true, s)), [Event.call s pos])
    else
      (tryVerticesLog (fun s1 => hamCycleUtilLog fuel s1 (pos + 1)) pos candidates s).map id
        (fun rest => Event.call s pos :: rest)

/-- The events of the search that `hamCycle(graph)` starts, on a fresh buffer `raw`: those
of the call `hamCycleUtil(graph, path, 1)` it makes. -/
def hamCycleOnLog (raw : List Int) (graph : List (List Bool)) : List Event :=
  match fillLoop (List.range V) raw with
  | none => []
  | some p0 =>
    match vecSet p0 0 0 with
    | none => []
    | some p1 => (hamCycleUtilLog (V + 1 - 1) { graph := graph, path := p1 } 1).2

/-- The graph `graph1` of the self-test `test()`. -/
def graph1 : List (List Bool) :=
  [ [false, true,  false, true,  false],
    [true,  false, true,  true,  true ],
    [false, true,  false, false, true ],
    [true,  true,  false, false, true ],
    [false, true,  true,  true,  false] ]

/-- The complete graph on five vertices. -/
def graphComplete : List (List Bool) :=
  [ [false, true,  true,  true,  true ],
    [true,  false, true,  true,  true ],
    [true,  true,  false, true,  true ],
    [true,  true,  true,  false, true ],
    [true,  true,  true,  true,  false] ]

/-- The cycle `0-1-2-3-0` with vertex `4` isolated. -/
def graphIsolated4 : List (List Bool) :=
  [ [false, true,  false, true,  false],
    [true,  false, true,  false, false],
    [false, true,  false, true,  false],
    [true,  false, true,  false, false],
    [false, false, false, false, false] ]

/-- The cycle `1-2-3-4-1` with vertex `0` isolated. -/
def graphIsolated0 : List (List Bool) :=
  [ [false, false, false, false, false],
    [false, false, true,  false, true ],
    [false, true,  false, true,  false],
    [false, false, true,  false, true ],
    [false, true,  false, true,  false] ]

/-- The star with centre `0`: a tree on five vertices. -/
def graphStar : List (List Bool) :=
  [ [false, true,  true,  true,  true ],
    [true,  false, false, false, false],
    [true,  false, false, false, false],
    [true,  false, false, false, false],
    [true,  false, false, false, false] ]

/-- The directed cycle `0 -> 1 -> 2 -> 3 -> 4 -> 0`: a matrix that is not symmetric. -/
def graphDirected : List (List Bool) :=
  [ [false, true,  false, false, false],
    [false, false, true,  false, false],
    [false, false, false, true,  false],
    [false, false, false, false, true ],
    [true,  false, false, false, false] ]

/-- The matrix `graph1` with a sixth column: five rows of six entries, not square. -/
def graphWide : List (List Bool) :=
  [ [false, true,  false, true,  false, true],
    [true,  false, true,  true,  true,  true],
    [false, true,  false, false, true,  true],
    [true,  true,  false, false, true,  true],
    [false, true,  true,  true,  false, true] ]

/-- The matrix `graph1` with every diagonal entry set to `true`. -/
def graph1Loops : List (List Bool) :=
  [ [true,  true,  false, true,  false],
    [true,  true,  true,  true,  true ],
    [false, true,  true,  false, true ],
    [true,  true,  false, true,  true ],
    [false, true,  true,  true,  true ] ]

end Backtracking.HamiltonianCycle

/-!
# Queue reversal (`operations_on_datastructures/reverse_queue.cpp`)

A `std::queue<int>` is the list of its elements from front to back, a `std::stack<int>`
the list of its elements from the top down.  `front()`, `top()` and `pop()` on an empty
container are undefined behaviour: the computation yields `none`.  The loop counters are
`unsigned int`, 32 bits wide, and wrap around on increment; `size` is a `uint64_t`, wide
enough for the size of any queue.
-/

namespace ReverseQueue

/-- The first loop of `reverseQueue`:
`for (unsigned int iterator = 0; iterator < size; iterator++)
   { myStack.push(myQueue.front()); myQueue.pop(); }`
from the state `(iterator, myQueue, myStack)`; the first argument bounds the number of
iterations (`none` when it is used up). -/
def drainLoop (size : Nat) : Nat → Nat → List Int → List Int → Option (List Int × List Int)
  | 0, _, _, _ => none
  | fuel + 1, iterator, myQueue, myStack =>
    if iterator < size then
      match myQueue with
      | [] => none
      | x :: rest => drainLoop size fuel ((iterator + 1) % 2 ^ 32) rest (x :: myStack)
    else some (myQueue, myStack)

/-- The second loop of `reverseQueue`:
`for (unsigned int iterator2 = 0; iterator2 < size; iterator2++)
   { newQueue.push(myStack.top()); myStack.pop(); }`
from the state `(iterator2, myStack, newQueue)`. -/
def refillLoop (size : Nat) : Nat → Nat → List Int → List Int → Option (List Int × List Int)
  | 0, _, _, _ => none
  | fuel + 1, iterator2, myStack, newQueue =>
    if iterator2 < size then
      match myStack with
      | [] => none
      | x :: rest => refillLoop size fuel ((iterator2 + 1) % 2 ^ 32) rest (newQueue ++ [x])
    else some (myStack, newQueue)

/-- Source function `reverseQueue(myQueue)`.  Every iteration of either loop removes an
element, so after `size` iterations the next one leaves the loop or reads an empty
container: `size + 1` iterations are all a loop can make. -/
def reverseQueue (myQueue : List Int) : Option (List Int) :=
  let size := myQueue.length
  match drainLoop size (size + 1) 0 myQueue [] with
  | none => none
  | some (_, myStack) =>
    match refillLoop size (size + 1) 0 myStack [] with
    | none => none
    | some (_, newQueue) => some newQueue

end ReverseQueue

namespace Backtracking.HamiltonianCycle

/-! ## Vocabulary of the specification -/

/-- Every entry `graph[u][v]` with `u, v` in `0 .. V-1` exists. -/
def HasEntries (graph : List (List Bool)) : Prop :=
  ∀ u v : Int, 0 ≤ u → u < V → 0 ≤ v → v < V → ∃ b, graphAt graph u v = some b

/-- The matrix has exactly `V` rows of exactly `V` entries. -/
def SquareV (graph : List (List Bool)) : Prop :=
  graph.length = V ∧ ∀ row, row ∈ graph → row.length = V

/-- The matrix reads `graph[u][v]` and `graph[v][u]` agree for all vertices. -/
def Symmetric (graph : List (List Bool)) : Prop :=
  ∀ u : Nat, u < V → ∀ v : Nat, v < V → graphAt graph u v = graphAt graph v u

/-- The matrix entry `graph[a][b]` is `true`. -/
def Adj (graph : List (List Bool)) (a b : Int) : Prop :=
  graphAt graph a b = some true

instance instDecidableAdj (graph : List (List Bool)) (a b : Int) : Decidable (Adj graph a b) :=
  inferInstanceAs (Decidable (graphAt graph a b = some true))

/-- The slots `init ++ [last]` being placed, `ext` fills the remaining slots with
candidates, each adjacent to its predecessor and not placed before, and the final vertex is
adjacent to `first`. -/
def Completes (graph : List (List Bool)) (first : Int) : List Int → Int → List Int → Prop
  | _, last, [] => Adj graph last first
  | init, last, v :: ext =>
    1 ≤ v ∧ v < V ∧ Adj graph last v ∧ v ∉ init ∧ v ≠ last ∧
      Completes graph first (init ++ [last]) v ext

/-- Lexicographic order on sequences: at the first position where they differ the left
one is smaller (or the left one is an initial segment of the right one). -/
def LexLE : List Int → List Int → Prop
  | [], _ => True
  | _ :: _, [] => False
  | a :: l, b :: m => a < b ∨ (a = b ∧ LexLE l m)

/-- The sequence `R` is a Hamiltonian cycle of `graph` written from vertex `0` back to
vertex `0`. -/
def ValidCycle (graph : List (List Bool)) (R : List Int) : Prop :=
  R.length = V + 1 ∧ R[0]? = some 0 ∧ R[V]? = some 0 ∧ (R.take V).Nodup ∧
    (∀ u : Int, u ∈ R.take V ↔ 0 ≤ u ∧ u < V) ∧
    ∀ i : Nat, i < V → ∃ a b, R[i]? = some a ∧ R[i + 1]? = some b ∧ Adj graph a b

/-- What a call of `hamCycleUtil` at position `init.length + 1` must produce when the
slots `init ++ [last]` are placed and the `n` slots behind them are unassigned. -/
def UtilSpec (graph : List (List Bool)) (first : Int) (init : List Int) (last : Int)
    (n : Nat) (res : Option (Bool × Store)) : Prop :=
  (∃ ext, ext.length = n ∧ Completes graph first init last ext ∧
      (∀ ext2, ext2.length = n → Completes graph first init last ext2 → LexLE ext ext2) ∧
      res = some (true, { graph := graph, path := init ++ last :: ext })) ∨
  ((∀ ext, ext.length = n → ¬ Completes graph first init last ext) ∧
      res = some (false, { graph := graph, path := init ++ last :: List.replicate n (-1) }))

/-- What the candidate loop of `hamCycleUtil` at position `init.length + 1` must produce
once the candidates `vs` are left to try: the first candidate of `vs` that leads to a
cycle, with the smallest completion behind it, or failure with the path restored. -/
def LoopSpec (graph : List (List Bool)) (first : Int) (init : List Int) (last : Int)
    (n : Nat) (vs : List Int) (res : Option (Bool × Store)) : Prop :=
  (∃ v ext, v ∈ vs ∧ ext.length = n ∧ Completes graph first init last (v :: ext) ∧
      (∀ v2 ext2, v2 ∈ vs → ext2.length = n → Completes graph first init last (v2 :: ext2) →
        LexLE (v :: ext) (v2 :: ext2)) ∧
      res = some (true, { graph := graph, path := init ++ last :: v :: ext })) ∨
  ((∀ v ext, v ∈ vs → ext.length = n → ¬ Completes graph first init last (v :: ext)) ∧
      res = some (false,
        { graph := graph, path := init ++ last :: List.replicate (n + 1) (-1) }))

/-- The graph has a Hamiltonian cycle: a cyclic ordering `cyc` of all `V` vertices, starting
at any vertex, in which every vertex is adjacent to the next one and the last to the
first. -/
def HasHamCycle (graph : List (List Bool)) : Prop :=
  ∃ cyc : List Int, cyc.length = V ∧ cyc.Nodup ∧ (∀ x, x ∈ cyc → 0 ≤ x ∧ x < V) ∧
    ∀ i : Nat, i < V → ∃ a b, cyc[i]? = some a ∧ cyc[(i + 1) % V]? = some b ∧ Adj graph a b

/-- Every two distinct vertices are adjacent. -/
def Complete (graph : List (List Bool)) : Prop :=
  ∀ u : Nat, u < V → ∀ v : Nat, v < V → u ≠ v → Adj graph u v

/-- No vertex is adjacent to itself: the diagonal of the matrix is `false`. -/
def NoSelfLoops (graph : List (List Bool)) : Prop :=
  ∀ u : Nat, u < V → graphAt graph u u = some false

/-- Every vertex is reachable from every vertex along edges. -/
def Connected (graph : List (List Bool)) : Prop :=
  ∀ u : Nat, u < V → ∀ v : Nat, v < V →
    Relation.ReflTransGen (fun a b : Nat => a < V ∧ b < V ∧ Adj graph a b) u v

/-- Number of edges: the unordered pairs `u < v` of vertices with `graph[u][v]` true. -/
def edgeCount (graph : List (List Bool)) : Nat :=
  ((Finset.range V ×ˢ Finset.range V).filter
    (fun p : Nat × Nat => p.1 < p.2 ∧ Adj graph p.1 p.2)).card

/-- The partial-path invariant of a call `hamCycleUtil(graph, path, pos)`: the graph is
the given one, `1 <= pos <= V`, the path has `V` slots, `path[0] = 0`, the slots
`0 .. pos-1` hold pairwise distinct vertex indices, each adjacent to the next, and the
slots `pos .. V-1` hold `-1`. -/
def PartialPath (graph : List (List Bool)) (s : Store) (pos : Nat) : Prop :=
  s.graph = graph ∧ 1 ≤ pos ∧ pos ≤ V ∧ s.path.length = V ∧ s.path[0]? = some 0 ∧
    (s.path.take pos).Nodup ∧ (∀ x, x ∈ s.path.take pos → 0 ≤ x ∧ x < V) ∧
    (∀ i, i + 1 < pos → ∃ a b, s.path[i]? = some a ∧ s.path[i + 1]? = some b ∧ Adj graph a b) ∧
    ∀ i, pos ≤ i → i < V → s.path[i]? = some (-1)

/-- The placed slots `init ++ [last]` start with vertex `0` and hold pairwise distinct
vertex indices, each adjacent to the next. -/
def PlacedOK (graph : List (List Bool)) (init : List Int) (last : Int) : Prop :=
  (init ++ [last]).head? = some 0 ∧ (init ++ [last]).Nodup ∧
    (∀ x, x ∈ init ++ [last] → 0 ≤ x ∧ x < V) ∧ List.Chain' (Adj graph) (init ++ [last])

/-- As `UtilSpec`, for a call whose `n` slots behind the placed ones hold anything on
entry: on failure they still are `n` slots, with unspecified contents. -/
def UtilSpecAny (graph : List (List Bool)) (first : Int) (init : List Int) (last : Int)
    (n : Nat) (res : Option (Bool × Store)) : Prop :=
  (∃ ext, ext.length = n ∧ Completes graph first init last ext ∧
      (∀ ext2, ext2.length = n → Completes graph first init last ext2 → LexLE ext ext2) ∧
      res = some (true, { graph := graph, path := init ++ last :: ext })) ∨
  ((∀ ext, ext.length = n → ¬ Completes graph first init last ext) ∧
      ∃ t : List Int, t.length = n ∧
        res = some (false, { graph := graph, path := init ++ last :: t }))

/-- As `LoopSpec`, for a loop whose `n + 1` slots behind the placed ones hold anything. -/
def LoopSpecAny (graph : List (List Bool)) (first : Int) (init : List Int) (last : Int)
    (n : Nat) (vs : List Int) (res : Option (Bool × Store)) : Prop :=
  (∃ v ext, v ∈ vs ∧ ext.length = n ∧ Completes graph first init last (v :: ext) ∧
      (∀ v2 ext2, v2 ∈ vs → ext2.length = n → Completes graph first init last (v2 :: ext2) →
        LexLE (v :: ext) (v2 :: ext2)) ∧
      res = some (true, { graph := graph, path := init ++ last :: v :: ext })) ∨
  ((∀ v ext, v ∈ vs → ext.length = n → ¬ Completes graph first init last (v :: ext)) ∧
      ∃ (x : Int) (t : List Int), t.length = n ∧
        res = some (false, { graph := graph, path := init ++ last :: x :: t }))

/-! ## Element access -/

theorem vecGet_natCast {α : Type} (xs : List α) (i : Nat) : vecGet xs (i : Int) = xs[i]? := by
  simp [vecGet]

theorem vecGet_pred {α : Type} (xs : List α) (k : Nat) :
    vecGet xs (((k + 1 : Nat) : Int) - 1) = xs[k]? := by
  have h : (((k + 1 : Nat) : Int) - 1) = (k : Int) := by push_cast; ring
  rw [h, vecGet_natCast]

theorem vecGet_some_iff {α : Type} (xs : List α) (i : Int) (x : α) :
    vecGet xs i = some x ↔ 0 ≤ i ∧ xs[i.toNat]? = some x := by
  unfold vecGet
  split_ifs with h
  · constructor
    · intro h1; cases h1
    · intro h1; omega
  · constructor
    · intro h1; exact ⟨by omega, h1⟩
    · intro h1; exact h1.2

theorem isSafeLoop_range' (v : Int) (path : List Int) (n : Nat) :
    ∀ k, k + n ≤ path.length →
      isSafeLoop v path (List.range' k n) = some (decide (v ∉ (path.drop k).take n)) := by
  induction n with
  | zero => intro k _; simp [isSafeLoop]
  | succ n ih =>
    intro k hk
    have hlt : k < path.length := by omega
    have hdrop : path.drop k = path[k] :: path.drop (k + 1) := List.drop_eq_getElem_cons hlt
    rw [List.range'_succ, isSafeLoop, vecGet_natCast, List.getElem?_eq_getElem hlt]
    simp only [hdrop, List.take_succ_cons, List.mem_cons, not_or]
    by_cases hx : path[k] = v
    · simp [hx]
    · have hx2 : ¬ v = path[k] := fun h => hx h.symm
      simp [hx, hx2, ih (k + 1) (by omega)]

theorem isSafeLoop_range (v : Int) (path : List Int) (pos : Nat) (h : pos ≤ path.length) :
    isSafeLoop v path (List.range pos) = some (decide (v ∉ path.take pos)) := by
  have := isSafeLoop_range' v path pos 0 (by omega)
  simpa [List.range_eq_range'] using this

theorem isSafe_store (v : Int) (s : Store) (pos : Nat) (b : Bool) (s1 : Store)
    (h : isSafe v s pos = some (b, s1)) : s1 = s := by
  unfold isSafe at h
  split at h
  · cases h
  · split at h
    · cases h
    · split_ifs at h
      · cases h; rfl
      · split at h
        · cases h
        · cases h; rfl

theorem vecSet_append_length {α : Type} (l : List α) (a : α) (t : List α) (x : α) :
    vecSet (l ++ a :: t) l.length x = some (l ++ x :: t) := by
  induction l with
  | nil => simp [vecSet]
  | cons b l ih =>
    simp only [vecSet, List.cons_append, List.length_cons, List.length_append,
      List.set_cons_succ] at ih ⊢
    have h1 : l.length < l.length + (t.length + 1) := by omega
    have h2 : l.length + 1 < l.length + (t.length + 1) + 1 := by omega
    simp only [h1, h2, if_true, Option.some.injEq] at ih ⊢
    rw [ih]

theorem candidates_eq : candidates = [1, 2, 3, 4] := by decide

theorem mem_candidates (v : Int) : v ∈ candidates ↔ 1 ≤ v ∧ v < V := by
  rw [candidates_eq]
  simp only [List.mem_cons, List.mem_singleton, V, List.not_mem_nil, or_false]
  constructor
  · intro h; omega
  · intro h; omega

theorem candidates_pairwise : candidates.Pairwise (· < ·) := by
  rw [candidates_eq]; decide

/-! ## The feasibility check on a placed initial segment -/

theorem getElem?_append_length {α : Type} (l : List α) (a : α) (t : List α) :
    (l ++ a :: t)[l.length]? = some a := by
  induction l with
  | nil => simp
  | cons b l ih => simpa using ih

theorem isSafe_placed (graph : List (List Bool)) (hG : HasEntries graph)
    (init : List Int) (last : Int) (t : List Int) (v : Int)
    (hlast : 0 ≤ last ∧ last < V) (hv : 0 ≤ v ∧ v < V) :
    ∃ b, isSafe v { graph := graph, path := init ++ last :: t } (init.length + 1) =
        some (b, { graph := graph, path := init ++ last :: t }) ∧
      (b = true ↔ Adj graph last v ∧ v ∉ init ∧ v ≠ last) := by
  obtain ⟨e, he⟩ := hG last v hlast.1 hlast.2 hv.1 hv.2
  have hget : (init ++ last :: t)[init.length]? = some last := getElem?_append_length _ _ _
  have hle : init.length + 1 ≤ (init ++ last :: t).length := by simp
  have htake : (init ++ last :: t).take (init.length + 1) = init ++ [last] := by
    rw [List.take_append_eq_append_take]; simp
  unfold isSafe
  simp only [vecGet_pred, hget, he, isSafeLoop_range v _ _ hle, htake]
  cases e
  · exact ⟨false, by simp, by simp [Adj, he]⟩
  · exact ⟨decide (v ∉ init ++ [last]), by simp, by simp [Adj, he]⟩

/-! ## The search on a placed initial segment -/

theorem tryVertices_spec (graph : List (List Bool)) (hG : HasEntries graph) (first : Int)
    (init : List Int) (last : Int) (n : Nat) (recur : Store → Option (Bool × Store))
    (hlast : 0 ≤ last ∧ last < V)
    (hrec : ∀ v : Int, 1 ≤ v → v < V → UtilSpec graph first (init ++ [last]) v n
      (recur { graph := graph, path := init ++ last :: v :: List.replicate n (-1) })) :
    ∀ vs : List Int, (∀ v, v ∈ vs → 1 ≤ v ∧ v < V) → vs.Pairwise (· < ·) →
      LoopSpec graph first init last n vs
        (tryVertices recur (init.length + 1) vs
          { graph := graph, path := init ++ last :: List.replicate (n + 1) (-1) }) := by
  intro vs
  induction vs with
  | nil =>
    intro _ _
    right
    exact ⟨fun v ext hv => by simp at hv, by simp [tryVertices]⟩
  | cons v vs ih =>
    intro hvs hpw
    have hv := hvs v (List.mem_cons_self _ _)
    have ih1 := ih (fun w hw => hvs w (List.mem_cons_of_mem _ hw)) (List.Pairwise.of_cons hpw)
    obtain ⟨b, hb, hbiff⟩ := isSafe_placed graph hG init last (List.replicate (n + 1) (-1)) v
      hlast ⟨by omega, hv.2⟩
    have hset : vecSet (init ++ last :: List.replicate (n + 1) (-1)) (init.length + 1) v =
        some (init ++ last :: v :: List.replicate n (-1)) := by
      have := vecSet_append_length (init ++ [last]) (-1) (List.replicate n (-1)) v
      simpa [List.replicate_succ] using this
    have hunset : vecSet (init ++ last :: v :: List.replicate n (-1)) (init.length + 1) (-1) =
        some (init ++ last :: List.replicate (n + 1) (-1)) := by
      have := vecSet_append_length (init ++ [last]) v (List.replicate n (-1)) (-1)
      simpa [List.replicate_succ] using this
    cases b with
    | false =>
      have hno : ¬ (Adj graph last v ∧ v ∉ init ∧ v ≠ last) := fun h => by
        have := hbiff.mpr h; cases this
      have hnov : ∀ ext, ¬ Completes graph first init last (v :: ext) := fun ext hc =>
        hno ⟨hc.2.2.1, hc.2.2.2.1, hc.2.2.2.2.1⟩
      simp only [tryVertices, hb]
      rcases ih1 with ⟨w, ext, hw, hlen, hc, hmin, hres⟩ | ⟨hnone, hres⟩
      · left
        refine ⟨w, ext, List.mem_cons_of_mem _ hw, hlen, hc, ?_, hres⟩
        intro v2 ext2 hv2 hlen2 hc2
        rcases List.mem_cons.mp hv2 with rfl | hv2
        · exact absurd hc2 (hnov ext2)
        · exact hmin v2 ext2 hv2 hlen2 hc2
      · right
        refine ⟨?_, hres⟩
        intro v2 ext2 hv2 hlen2 hc2
        rcases List.mem_cons.mp hv2 with rfl | hv2
        · exact hnov ext2 hc2
        · exact hnone v2 ext2 hv2 hlen2 hc2
    | true =>
      have hyes : Adj graph last v ∧ v ∉ init ∧ v ≠ last := hbiff.mp rfl
      simp only [tryVertices, hb, hset]
      rcases hrec v hv.1 hv.2 with ⟨ext, hlen, hc, hmin, hres⟩ | ⟨hnone, hres⟩
      · left
        simp only [hres]
        refine ⟨v, ext, List.mem_cons_self _ _, hlen,
          ⟨hv.1, hv.2, hyes.1, hyes.2.1, hyes.2.2, hc⟩, ?_, by simp⟩
        intro v2 ext2 hv2 hlen2 hc2
        rcases List.mem_cons.mp hv2 with rfl | hv2
        · exact Or.inr ⟨rfl, hmin ext2 hlen2 hc2.2.2.2.2.2⟩
        · exact Or.inl (List.rel_of_pairwise_cons hpw hv2)
      · have hnov : ∀ ext, ext.length = n → ¬ Completes graph first init last (v :: ext) :=
          fun ext hlen hc => hnone ext hlen hc.2.2.2.2.2
        simp only [hres, List.append_assoc, List.singleton_append, hunset]
        rcases ih1 with ⟨w, ext, hw, hlen, hc, hmin, hres2⟩ | ⟨hnone2, hres2⟩
        · left
          refine ⟨w, ext, List.mem_cons_of_mem _ hw, hlen, hc, ?_, hres2⟩
          intro v2 ext2 hv2 hlen2 hc2
          rcases List.mem_cons.mp hv2 with rfl | hv2
          · exact absurd hc2 (hnov ext2 hlen2)
          · exact hmin v2 ext2 hv2 hlen2 hc2
        · right
          refine ⟨?_, hres2⟩
          intro v2 ext2 hv2 hlen2 hc2
          rcases List.mem_cons.mp hv2 with rfl | hv2
          · exact hnov ext2 hlen2 hc2
          · exact hnone2 v2 ext2 hv2 hlen2 hc2

theorem hamCycleUtilAux_spec (graph : List (List Bool)) (hG : HasEntries graph) (first : Int)
    (hfirst : 0 ≤ first ∧ first < V) :
    ∀ (n : Nat) (init : List Int) (last : Int), init.length + 1 + n = V →
      0 ≤ last ∧ last < V → (init ++ [last]).head? = some first →
      UtilSpec graph first init last n
        (hamCycleUtilAux (n + 1)
          { graph := graph, path := init ++ last :: List.replicate n (-1) }
          (init.length + 1)) := by
  intro n
  induction n with
  | zero =>
    intro init last hlen hlast hhead
    have hpos : init.length + 1 = V := by omega
    obtain ⟨e, he⟩ := hG last first hlast.1 hlast.2 hfirst.1 hfirst.2
    have hget : (init ++ [last])[init.length]? = some last := getElem?_append_length _ _ _
    have h0 : (init ++ [last])[0]? = some first := by
      rw [← List.head?_eq_getElem?]; exact hhead
    have hz : vecGet (init ++ [last]) 0 = some first := by
      have := vecGet_natCast (init ++ [last]) 0
      simpa [h0] using this
    simp only [hamCycleUtilAux, hpos, if_true, List.replicate_zero]
    rw [← hpos, vecGet_pred, hget]
    simp only [hz, he]
    cases e
    · right
      refine ⟨?_, by simp⟩
      intro ext hl hc
      have : ext = [] := List.length_eq_zero.mp hl
      subst this
      simp [Completes, Adj, he] at hc
    · left
      refine ⟨[], rfl, by simp [Completes, Adj, he], ?_, by simp⟩
      intro ext2 _ _
      simp [LexLE]
  | succ n ih =>
    intro init last hlen hlast hhead
    have hne : ¬ init.length + 1 = V := by omega
    simp only [hamCycleUtilAux, hne, if_false]
    have hrec : ∀ v : Int, 1 ≤ v → v < V → UtilSpec graph first (init ++ [last]) v n
        (hamCycleUtilAux (n + 1)
          { graph := graph, path := init ++ last :: v :: List.replicate n (-1) }
          (init.length + 1 + 1)) := by
      intro v hv1 hv2
      have := ih (init ++ [last]) v (by simp; omega) ⟨by omega, hv2⟩
        (by rw [List.head?_append_of_ne_nil _ (by simp)]; exact hhead)
      simpa using this
    have hloop := tryVertices_spec graph hG first init last n
      (fun s1 => hamCycleUtilAux (n + 1) s1 (init.length + 1 + 1)) hlast hrec candidates
      (fun v hv => (mem_candidates v).mp hv) candidates_pairwise
    rcases hloop with ⟨v, ext, _, hl, hc, hmin, hres⟩ | ⟨hnone, hres⟩
    · left
      refine ⟨v :: ext, by simp [hl], hc, ?_, hres⟩
      intro ext2 hl2 hc2
      cases ext2 with
      | nil => simp at hl2
      | cons v2 ext2 =>
        exact hmin v2 ext2 ((mem_candidates v2).mpr ⟨hc2.1, hc2.2.1⟩) (by simpa using hl2) hc2
    · right
      refine ⟨?_, hres⟩
      intro ext2 hl2 hc2
      cases ext2 with
      | nil => simp at hl2
      | cons v2 ext2 =>
        exact hnone v2 ext2 ((mem_candidates v2).mpr ⟨hc2.1, hc2.2.1⟩) (by simpa using hl2) hc2

/-! ## The driver -/

theorem fillLoop_raw (raw : List Int) (hraw : raw.length = V) :
    fillLoop (List.range V) raw = some (List.replicate V (-1)) := by
  rcases raw with _ | ⟨a, _ | ⟨b, _ | ⟨c, _ | ⟨d, _ | ⟨e, _ | ⟨f, r⟩⟩⟩⟩⟩⟩ <;>
    simp [V] at hraw
  rfl

theorem resizeSolution_cast (ext : List Int) (h : ext.length + 1 = V) (size : Nat) :
    resizeSolution (castVector (0 :: ext) size) =
      some ((0 :: ext).take size ++ List.replicate (V - size) 0 ++ [0]) := by
  have hV5 : V = 5 := rfl
  have hlen : ((0 :: ext).take size).length = min size V := by
    rw [List.length_take]; simp; omega
  have h1 : ((0 :: ext).take size).take V = (0 :: ext).take size :=
    List.take_of_length_le (by rw [hlen]; omega)
  have h2 : V - ((0 :: ext).take size).length = V - size := by rw [hlen]; omega
  unfold resizeSolution castVector
  simp only [h1, h2]
  cases size with
  | zero => simp [V, vecGet, List.replicate]
  | succ k => simp [vecGet]

/-- What `hamCycle` returns once the search has found the completion `ext`: the first
`size` slots of the path, zeros up to `V` slots, and a final `0`; the cycle itself when
`size` is `V` or more. -/
theorem returned_length (ext : List Int) (h : ext.length + 1 = V) (size : Nat) :
    ((0 :: ext).take size ++ List.replicate (V - size) 0 ++ [0]).length = V + 1 ∧
      (V ≤ size →
        (0 :: ext).take size ++ List.replicate (V - size) 0 ++ [0] = 0 :: ext ++ [0]) := by
  constructor
  · simp only [List.length_append, List.length_take, List.length_replicate, List.length_cons,
      List.length_singleton, List.length_nil]
    omega
  · intro hs
    have h1 : (0 :: ext).take size = 0 :: ext := List.take_of_length_le (by simp; omega)
    have h2 : V - size = 0 := by omega
    rw [h1, h2]
    simp

theorem hamCycleOn_spec (graph : List (List Bool)) (hG : HasEntries graph) (raw : List Int)
    (size : Nat) (hraw : raw.length = V) :
    (∃ ext, ext.length = V - 1 ∧ Completes graph 0 [] 0 ext ∧
        (∀ ext2, ext2.length = V - 1 → Completes graph 0 [] 0 ext2 → LexLE ext ext2) ∧
        hamCycleOn raw size graph =
          some ((0 :: ext).take size ++ List.replicate (V - size) 0 ++ [0], graph)) ∨
    ((∀ ext, ext.length = V - 1 → ¬ Completes graph 0 [] 0 ext) ∧
        hamCycleOn raw size graph = some ([], graph)) := by
  have hspec := hamCycleUtilAux_spec graph hG 0 ⟨le_refl _, by simp [V]⟩ (V - 1) [] 0
    (by simp [V]) ⟨le_refl _, by simp [V]⟩ rfl
  have hfuel : V + 1 - 1 = V - 1 + 1 := by simp [V]
  have hset : vecSet (List.replicate V (-1 : Int)) 0 0 = some (0 :: List.replicate (V - 1) (-1)) := by
    rfl
  unfold hamCycleOn hamCycleUtil
  simp only [fillLoop_raw raw hraw, hset, hfuel]
  simp only [List.nil_append, List.length_nil, Nat.zero_add] at hspec
  rcases hspec with ⟨ext, hl, hc, hmin, hres⟩ | ⟨hnone, hres⟩
  · left
    refine ⟨ext, hl, hc, hmin, ?_⟩
    simp only [hres, List.nil_append]
    rw [resizeSolution_cast ext (by rw [hl]; simp [V]) size]
  · right
    refine ⟨hnone, ?_⟩
    simp only [hres]

theorem hamCycle_spec (graph : List (List Bool)) (hG : HasEntries graph) (size : Nat) :
    (∃ ext, ext.length = V - 1 ∧ Completes graph 0 [] 0 ext ∧
        (∀ ext2, ext2.length = V - 1 → Completes graph 0 [] 0 ext2 → LexLE ext ext2) ∧
        hamCycle size graph =
          some ((0 :: ext).take size ++ List.replicate (V - size) 0 ++ [0], graph)) ∨
    ((∀ ext, ext.length = V - 1 → ¬ Completes graph 0 [] 0 ext) ∧
        hamCycle size graph = some ([], graph)) :=
  hamCycleOn_spec graph hG (List.replicate V 0) size (by simp)

theorem hasEntries_of_squareV (graph : List (List Bool)) (h : SquareV graph) :
    HasEntries graph := by
  intro u v hu0 hu hv0 hv
  have hu1 : u.toNat < graph.length := by rw [h.1]; omega
  have hrow := h.2 _ (List.getElem_mem hu1)
  have hv1 : v.toNat < (graph[u.toNat]).length := by rw [hrow]; omega
  refine ⟨(graph[u.toNat])[v.toNat], ?_⟩
  unfold graphAt vecGet
  simp [not_lt.mpr hu0, not_lt.mpr hv0, List.getElem?_eq_getElem hu1,
    List.getElem?_eq_getElem hv1]

/-! ## Completions and cycles -/

theorem chain_iff_index (R : Int → Int → Prop) (l : List Int) :
    ∀ a : Int, List.Chain R a l ↔
      ∀ i : Nat, i < l.length → ∃ x y, (a :: l)[i]? = some x ∧ (a :: l)[i + 1]? = some y ∧ R x y := by
  induction l with
  | nil => intro a; simp
  | cons b l ih =>
    intro a
    rw [List.chain_cons, ih b]
    constructor
    · rintro ⟨hab, hrest⟩ i hi
      cases i with
      | zero => exact ⟨a, b, by simp, by simp, hab⟩
      | succ j =>
        obtain ⟨x, y, hx, hy, hxy⟩ := hrest j (by simpa using hi)
        exact ⟨x, y, by simpa using hx, by simpa using hy, hxy⟩
    · intro h
      constructor
      · obtain ⟨x, y, hx, hy, hxy⟩ := h 0 (by simp)
        simp at hx hy
        subst hx; subst hy
        exact hxy
      · intro j hj
        obtain ⟨x, y, hx, hy, hxy⟩ := h (j + 1) (by simpa using hj)
        exact ⟨x, y, by simpa using hx, by simpa using hy, hxy⟩

theorem completes_iff (graph : List (List Bool)) (first : Int) (ext : List Int) :
    ∀ (init : List Int) (last : Int), Completes graph first init last ext ↔
      (∀ v, v ∈ ext → 1 ≤ v ∧ v < V) ∧ (∀ v, v ∈ ext → v ∉ init ∧ v ≠ last) ∧ ext.Nodup ∧
        List.Chain (Adj graph) last (ext ++ [first]) := by
  induction ext with
  | nil => intro init last; simp [Completes]
  | cons v ext ih =>
    intro init last
    simp only [Completes, ih (init ++ [last]) v, List.cons_append, List.chain_cons,
      List.nodup_cons, List.mem_cons, List.mem_append, List.mem_singleton]
    constructor
    · rintro ⟨h1, h2, h3, h4, h5, h6, h7, h8, h9⟩
      refine ⟨?_, ?_, ⟨fun hmem => (h7 v hmem).2 rfl, h8⟩, h3, h9⟩
      · rintro w (rfl | hw)
        · exact ⟨h1, h2⟩
        · exact h6 w hw
      · rintro w (rfl | hw)
        · exact ⟨h4, h5⟩
        · have := (h7 w hw).1
          exact ⟨fun hin => this (Or.inl hin), fun hl => this (Or.inr (Or.inl hl))⟩
    · rintro ⟨h1, h2, ⟨h3, h4⟩, h5, h6⟩
      refine ⟨(h1 v (Or.inl rfl)).1, (h1 v (Or.inl rfl)).2, h5, (h2 v (Or.inl rfl)).1,
        (h2 v (Or.inl rfl)).2, fun w hw => h1 w (Or.inr hw), ?_, h4, h6⟩
      intro w hw
      have := h2 w (Or.inr hw)
      refine ⟨?_, fun hwv => h3 (hwv ▸ hw)⟩
      rintro (hin | hl | hl)
      · exact this.1 hin
      · exact this.2 hl
      · simp at hl

theorem covers_of_nodup (l : List Int) (hnd : l.Nodup) (hr : ∀ x, x ∈ l → 0 ≤ x ∧ x < V)
    (hlen : l.length = V) : ∀ u : Int, 0 ≤ u → u < V → u ∈ l := by
  intro u hu0 hu
  have hinj : ∀ x, x ∈ l → ∀ y, y ∈ l → x.toNat = y.toNat → x = y := by
    intro x hx y hy hxy
    have := (hr x hx).1
    have := (hr y hy).1
    omega
  have hnd2 : (l.map Int.toNat).Nodup := List.Nodup.map_on hinj hnd
  have hsub : (l.map Int.toNat).toFinset ⊆ Finset.range V := by
    intro k hk
    simp only [List.mem_toFinset, List.mem_map] at hk
    obtain ⟨x, hx, rfl⟩ := hk
    have := hr x hx
    simp only [Finset.mem_range]
    omega
  have hcard : (Finset.range V).card ≤ (l.map Int.toNat).toFinset.card := by
    rw [List.toFinset_card_of_nodup hnd2]; simp [hlen]
  have heq := Finset.eq_of_subset_of_card_le hsub hcard
  have hmem : u.toNat ∈ (l.map Int.toNat).toFinset := by
    rw [heq, Finset.mem_range]; omega
  simp only [List.mem_toFinset, List.mem_map] at hmem
  obtain ⟨x, hx, hxu⟩ := hmem
  have := (hr x hx).1
  have : x = u := by omega
  exact this ▸ hx

theorem validCycle_iff_completes (graph : List (List Bool)) (ext : List Int)
    (hl : ext.length = V - 1) :
    ValidCycle graph (0 :: ext ++ [0]) ↔ Completes graph 0 [] 0 ext := by
  have hV : V = ext.length + 1 := by rw [hl]; simp [V]
  have htake : (0 :: ext ++ [0]).take V = 0 :: ext := by
    rw [hV]
    show List.take (0 :: ext).length ((0 :: ext) ++ [0]) = 0 :: ext
    exact List.take_left _ _
  have hlast : (0 :: ext ++ [0])[V]? = some 0 := by
    rw [hV]; exact getElem?_append_length (0 :: ext) 0 []
  have hchain := chain_iff_index (Adj graph) (ext ++ [0]) 0
  have hlen2 : (ext ++ [0]).length = V := by rw [hV]; simp
  rw [hlen2] at hchain
  rw [completes_iff]
  unfold ValidCycle
  rw [htake]
  simp only [List.cons_append] at hchain hlast ⊢
  constructor
  · rintro ⟨_, _, _, hnd, hmem, hadj⟩
    have hnd2 := List.nodup_cons.mp hnd
    refine ⟨?_, ?_, hnd2.2, hchain.mpr hadj⟩
    · intro v hv
      have hr := (hmem v).mp (List.mem_cons_of_mem _ hv)
      have hne : v ≠ 0 := fun h => hnd2.1 (h ▸ hv)
      exact ⟨by omega, hr.2⟩
    · intro v hv
      exact ⟨by simp, fun h => hnd2.1 (h ▸ hv)⟩
  · rintro ⟨hr, hne, hnd, hch⟩
    have hnd2 : (0 :: ext).Nodup :=
      List.nodup_cons.mpr ⟨fun h0 => (hne 0 h0).2 rfl, hnd⟩
    have hrange : ∀ x, x ∈ (0 :: ext) → 0 ≤ x ∧ x < (V : Int) := by
      intro x hx
      rcases List.mem_cons.mp hx with rfl | hx
      · exact ⟨le_refl _, by simp [V]⟩
      · have := hr x hx
        exact ⟨by omega, this.2⟩
    refine ⟨by simp [hV], by simp, hlast, hnd2, ?_, hchain.mp hch⟩
    intro u
    constructor
    · exact hrange u
    · intro hu
      exact covers_of_nodup (0 :: ext) hnd2 hrange (by simp [hV]) u hu.1 hu.2

theorem validCycle_shape (graph : List (List Bool)) (R : List Int) (h : ValidCycle graph R) :
    ∃ ext, R = 0 :: ext ++ [0] ∧ ext.length = V - 1 := by
  obtain ⟨hlen, h0, hV, _⟩ := h
  cases R with
  | nil => simp at hlen
  | cons a t =>
    have ht : t ≠ [] := by
      intro h; subst h; simp [V] at hlen
    have hlt : t.length = V := by simpa using hlen
    have hdl : t.dropLast.length = V - 1 := by simp [hlt]
    have hsplit : t.dropLast ++ [t.getLast ht] = t := List.dropLast_append_getLast ht
    have ha : a = 0 := by simpa using h0
    have hidx : V = (a :: t.dropLast).length := by simp [hdl, V]
    have hb : t.getLast ht = 0 := by
      have h1 : (a :: t)[V]? = ((a :: t.dropLast) ++ t.getLast ht :: [])[V]? := by
        rw [List.cons_append, hsplit]
      rw [h1] at hV
      have h2 := getElem?_append_length (a :: t.dropLast) (t.getLast ht) []
      rw [← hidx] at h2
      rw [h2] at hV
      simpa using hV
    have hsplit0 : t.dropLast ++ [0] = t := by
      have := hsplit
      rw [hb] at this
      exact this
    refine ⟨t.dropLast, ?_, hdl⟩
    rw [List.cons_append, hsplit0, ha]

theorem validCycle_of_hasHamCycle (graph : List (List Bool)) (h : HasHamCycle graph) :
    ∃ R, ValidCycle graph R := by
  obtain ⟨cyc, hlen, hnd, hr, hadj⟩ := h
  have h0 : (0 : Int) ∈ cyc := covers_of_nodup cyc hnd hr hlen 0 (le_refl _) (by simp [V])
  obtain ⟨k, hk, hck⟩ := List.getElem_of_mem h0
  have hkV : k < V := hlen ▸ hk
  have hck2 : cyc[k]? = some 0 := by rw [List.getElem?_eq_getElem hk, hck]
  have hrl : (cyc.rotate k).length = V := by rw [List.length_rotate, hlen]
  have hget : ∀ i, i < V → (cyc.rotate k)[i]? = cyc[(i + k) % V]? := by
    intro i hi
    rw [List.getElem?_rotate (hlen.symm ▸ hi), hlen]
  have hleft : ∀ i, i < V → (cyc.rotate k ++ [0])[i]? = cyc[(i + k) % V]? := by
    intro i hi
    rw [List.getElem?_append_left (hrl.symm ▸ hi), hget i hi]
  have hright : (cyc.rotate k ++ [0])[V]? = some 0 := by
    have := getElem?_append_length (cyc.rotate k) 0 []
    rwa [hrl] at this
  have htake : (cyc.rotate k ++ [0]).take V = cyc.rotate k := List.take_left' hrl
  refine ⟨cyc.rotate k ++ [0], by simp [hrl], ?_, hright, ?_, ?_, ?_⟩
  · rw [hleft 0 (by simp [V]), Nat.zero_add, Nat.mod_eq_of_lt hkV, hck2]
  · rw [htake]; exact List.nodup_rotate.mpr hnd
  · intro u
    rw [htake, List.mem_rotate]
    exact ⟨hr u, fun hu => covers_of_nodup cyc hnd hr hlen u hu.1 hu.2⟩
  · intro i hi
    have hj : (i + k) % V < V := Nat.mod_lt _ (by simp [V])
    obtain ⟨a, b, ha, hb, hab⟩ := hadj ((i + k) % V) hj
    refine ⟨a, b, by rw [hleft i hi, ha], ?_, hab⟩
    have hmod : ((i + k) % V + 1) % V = (i + 1 + k) % V := by
      rw [Nat.mod_add_mod]; congr 1; omega
    rw [hmod] at hb
    by_cases hi1 : i + 1 < V
    · rw [hleft (i + 1) hi1, hb]
    · have hiV : i + 1 = V := by omega
      have hk2 : (i + 1 + k) % V = k := by
        rw [hiV, Nat.add_mod_left, Nat.mod_eq_of_lt hkV]
      rw [hk2, hck2] at hb
      rw [hiV, hright, hb]

/-- Soundness of `hamCycle` where the vector size read by `resizeSolution` is `V` or
more: a non-empty returned sequence is a `ValidCycle` and holds no `-1`. -/
theorem hamCycle_valid_of_size (graph : List (List Bool)) (hsq : SquareV graph) (size : Nat)
    (hsize : V ≤ size) (R : List Int) (g : List (List Bool))
    (hres : hamCycle size graph = some (R, g)) (hne : R ≠ []) :
    ValidCycle graph R ∧ (-1 : Int) ∉ R := by
  rcases hamCycle_spec graph (hasEntries_of_squareV graph hsq) size with
    ⟨ext, hl, hc, _, hres2⟩ | ⟨_, hres2⟩
  · rw [hres2, (returned_length ext (by rw [hl]; simp [V]) size).2 hsize] at hres
    simp only [Option.some.injEq, Prod.mk.injEq] at hres
    obtain ⟨hR, _⟩ := hres
    subst hR
    have hvc := (validCycle_iff_completes graph ext hl).mpr hc
    refine ⟨hvc, ?_⟩
    have hV : V = (0 :: ext).length := by simp [hl, V]
    have htake : (0 :: ext ++ [0]).take V = 0 :: ext := by
      rw [hV]; exact List.take_left _ _
    have hmem := hvc.2.2.2.2.1
    rw [htake] at hmem
    intro hin
    simp only [List.cons_append, List.mem_cons, List.mem_append, List.mem_singleton,
      List.not_mem_nil, or_false] at hin
    have : (-1 : Int) ∈ 0 :: ext := by
      rcases hin with h | h | h
      · omega
      · exact List.mem_cons_of_mem _ h
      · omega
    have := (hmem (-1)).mp this
    omega
  · rw [hres2] at hres
    simp only [Option.some.injEq, Prod.mk.injEq] at hres
    exact absurd hres.1.symm hne

theorem squareV_graph1 : SquareV graph1 := by
  unfold SquareV; decide

theorem not_validCycle_of_dup (graph : List (List Bool)) (R : List Int)
    (h : ¬ (R.take V).Nodup) : ¬ ValidCycle graph R :=
  fun hv => h hv.2.2.2.1

/-- C1, where the code departs from it.  On `graph1`, the matrix of the self-test, with the
vector size read as `0`, the search finds `[0, 1, 2, 4, 3]` but `resize(V)` overwrites it:
`hamCycle` returns `[0, 0, 0, 0, 0, 0]`, which is not empty and is not a cycle. -/
theorem hamCycle_returns_noncycle :
    SquareV graph1 ∧
      hamCycleUtil { graph := graph1, path := [0, -1, -1, -1, -1] } 1 =
        some (true, { graph := graph1, path := [0, 1, 2, 4, 3] }) ∧
      hamCycle 0 graph1 = some ([0, 0, 0, 0, 0, 0], graph1) ∧
      ([0, 0, 0, 0, 0, 0] : List Int) ≠ [] ∧ ¬ ValidCycle graph1 [0, 0, 0, 0, 0, 0] :=
  ⟨squareV_graph1, by decide, by decide, by decide,
    not_validCycle_of_dup graph1 _ (by decide)⟩

theorem lexLE_refl (l : List Int) : LexLE l l := by
  induction l with
  | nil => simp [LexLE]
  | cons a l ih => exact Or.inr ⟨rfl, ih⟩

theorem lexLE_append (t : List Int) (l : List Int) :
    ∀ m : List Int, l.length = m.length → LexLE l m → LexLE (l ++ t) (m ++ t) := by
  induction l with
  | nil =>
    intro m hm _
    have : m = [] := List.length_eq_zero.mp hm.symm
    subst this
    exact lexLE_refl _
  | cons a l ih =>
    intro m hm hle
    cases m with
    | nil => simp at hm
    | cons b m =>
      rcases hle with hlt | ⟨hab, hrest⟩
      · exact Or.inl hlt
      · exact Or.inr ⟨hab, ih m (by simpa using hm) hrest⟩

/-- On a matrix with all `V x V` entries that has a cycle through `0`, `hamCycle` returns a
sequence of `V + 1` entries and leaves the graph as it is; where the vector size read by
`resizeSolution` is `V` or more, the sequence is the smallest such cycle. -/
theorem hamCycle_found (graph : List (List Bool)) (hG : HasEntries graph)
    (hex : ∃ R0, ValidCycle graph R0) (size : Nat) :
    ∃ R, hamCycle size graph = some (R, graph) ∧ R.length = V + 1 ∧
      (V ≤ size → ValidCycle graph R ∧ ∀ R2, ValidCycle graph R2 → LexLE R R2) := by
  obtain ⟨R0, hR0⟩ := hex
  obtain ⟨ext0, rfl, hl0⟩ := validCycle_shape graph R0 hR0
  have hc0 := (validCycle_iff_completes graph ext0 hl0).mp hR0
  rcases hamCycle_spec graph hG size with ⟨ext, hl, hc, hmin, hres⟩ | ⟨hnone, _⟩
  · have hret := returned_length ext (by rw [hl]; simp [V]) size
    refine ⟨_, hres, hret.1, ?_⟩
    intro hsize
    rw [hret.2 hsize]
    refine ⟨(validCycle_iff_completes graph ext hl).mpr hc, ?_⟩
    intro R2 hR2
    obtain ⟨ext2, rfl, hl2⟩ := validCycle_shape graph R2 hR2
    have hc2 := (validCycle_iff_completes graph ext2 hl2).mp hR2
    have hle := lexLE_append [0] ext ext2 (by rw [hl, hl2]) (hmin ext2 hl2 hc2)
    exact Or.inr ⟨rfl, hle⟩
  · exact absurd hc0 (hnone ext0 hl0)

/-- On a matrix with all `V x V` entries that has no cycle through `0`, `hamCycle` returns
the empty sequence and leaves the graph as it is, whatever the vector size read. -/
theorem hamCycle_none (graph : List (List Bool)) (hG : HasEntries graph)
    (hno : ∀ R0, ¬ ValidCycle graph R0) (size : Nat) :
    hamCycle size graph = some ([], graph) := by
  rcases hamCycle_spec graph hG size with ⟨ext, hl, hc, _, _⟩ | ⟨_, hres⟩
  · exact absurd ((validCycle_iff_completes graph ext hl).mpr hc) (hno _)
  · exact hres

theorem symmetric_graph1 : Symmetric graph1 := by
  unfold Symmetric; decide

theorem hasHamCycle_graph1 : HasHamCycle graph1 := by
  refine ⟨[1, 2, 4, 3, 0], rfl, by decide, by decide, ?_⟩
  intro i hi
  have hi5 : i < 5 := hi
  interval_cases i
  · exact ⟨1, 2, rfl, rfl, by decide⟩
  · exact ⟨2, 4, rfl, rfl, by decide⟩
  · exact ⟨4, 3, rfl, rfl, by decide⟩
  · exact ⟨3, 0, rfl, rfl, by decide⟩
  · exact ⟨0, 1, rfl, rfl, by decide⟩

/-- Completeness of `hamCycle`: on a `V x V` matrix whose graph has a Hamiltonian cycle
(a cyclic ordering of all vertices starting at any vertex), `hamCycle` returns a sequence
of `V + 1` entries, never the empty one; where the vector size read by `resizeSolution` is
`V` or more, it is the smallest cycle written from vertex `0`. -/
theorem hamCycle_nonempty_of_hasHamCycle (graph : List (List Bool)) (hsq : SquareV graph)
    (hham : HasHamCycle graph) (size : Nat) :
    ∃ R, hamCycle size graph = some (R, graph) ∧ R ≠ [] ∧ R.length = V + 1 ∧
      (V ≤ size → ValidCycle graph R ∧ ∀ R2, ValidCycle graph R2 → LexLE R R2) := by
  obtain ⟨R, h1, h2, h3⟩ := hamCycle_found graph (hasEntries_of_squareV graph hsq)
    (validCycle_of_hasHamCycle graph hham) size
  refine ⟨R, h1, ?_, h2, h3⟩
  intro h
  rw [h] at h2
  simp at h2

/-- C2, where the code departs from it.  `graph1` is symmetric and has a Hamiltonian cycle,
and the search finds one; with the vector size read as `3`, `hamCycle` returns
`[0, 1, 2, 0, 0, 0]`: not the empty sequence, but not a cycle either. -/
theorem hamCycle_complete_noncycle :
    SquareV graph1 ∧ Symmetric graph1 ∧ HasHamCycle graph1 ∧
      hamCycle 3 graph1 = some ([0, 1, 2, 0, 0, 0], graph1) ∧
      ¬ ValidCycle graph1 [0, 1, 2, 0, 0, 0] :=
  ⟨squareV_graph1, symmetric_graph1, hasHamCycle_graph1, by decide,
    not_validCycle_of_dup graph1 _ (by decide)⟩

theorem validCycle_graph1 : ValidCycle graph1 [0, 1, 2, 4, 3, 0] := by
  obtain ⟨R, h1, _, h3⟩ := hamCycle_found graph1 (hasEntries_of_squareV graph1 squareV_graph1)
    (validCycle_of_hasHamCycle graph1 hasHamCycle_graph1) V
  have hres : hamCycle V graph1 = some ([0, 1, 2, 4, 3, 0], graph1) := by decide
  rw [hres] at h1
  have hR : R = [0, 1, 2, 4, 3, 0] := ((Prod.mk.inj (Option.some.inj h1)).1).symm
  subst hR
  exact (h3 (le_refl _)).1

/-- C3, where the code departs from it.  On `graph1`, the graph with the edges
`0-1, 0-3, 1-2, 1-3, 1-4, 2-4, 3-4`, the smallest cycle is `[0, 1, 2, 4, 3, 0]`, which the
self-test expects and which is returned when the vector size is read as `V`; with the size
read as `2` the result is `[0, 1, 0, 0, 0, 0]`. -/
theorem hamCycle_test_result :
    ValidCycle graph1 [0, 1, 2, 4, 3, 0] ∧
      hamCycle V graph1 = some ([0, 1, 2, 4, 3, 0], graph1) ∧
      hamCycle 2 graph1 = some ([0, 1, 0, 0, 0, 0], graph1) ∧
      ([0, 1, 0, 0, 0, 0] : List Int) ≠ [0, 1, 2, 4, 3, 0] ∧
      ¬ ValidCycle graph1 [0, 1, 0, 0, 0, 0] :=
  ⟨validCycle_graph1, by decide, by decide, by decide,
    not_validCycle_of_dup graph1 _ (by decide)⟩

theorem mem_take_iff (path : List Int) (pos : Nat) (v : Int) :
    v ∈ path.take pos ↔ ∃ i, i < pos ∧ path[i]? = some v := by
  rw [List.mem_iff_getElem?]
  constructor
  · rintro ⟨i, hi⟩
    rw [List.getElem?_take] at hi
    by_cases h : i < pos
    · rw [if_pos h] at hi
      exact ⟨i, h, hi⟩
    · rw [if_neg h] at hi
      cases hi
  · rintro ⟨i, hi, hv⟩
    exact ⟨i, by rw [List.getElem?_take_of_lt hi, hv]⟩

/-- C4.  Feasibility check: on a `V x V` matrix, for `1 <= pos <= V`, a candidate `v` in
`0 .. V-1` and a path whose slots `0 .. pos-1` hold vertex indices, `isSafe` returns `true`
exactly when `graph[path[pos-1]][v]` is `true` and `v` is in none of the slots
`0 .. pos-1`; the store it leaves behind (graph and path) is the one it received. -/
theorem isSafe_iff (graph : List (List Bool)) (path : List Int) (pos : Nat) (v : Int)
    (hsq : SquareV graph) (hpos1 : 1 ≤ pos) (_hpos2 : pos ≤ V) (hv0 : 0 ≤ v) (hv : v < V)
    (hp : ∀ i, i < pos → ∃ x, path[i]? = some x ∧ 0 ≤ x ∧ x < V) :
    ∃ b, isSafe v { graph := graph, path := path } pos =
        some (b, { graph := graph, path := path }) ∧
      (b = true ↔ (∃ a, path[pos - 1]? = some a ∧ graphAt graph a v = some true) ∧
        ∀ i, i < pos → path[i]? ≠ some v) := by
  obtain ⟨k, rfl⟩ : ∃ k, pos = k + 1 := ⟨pos - 1, by omega⟩
  obtain ⟨a, ha, ha0, haV⟩ := hp k (by omega)
  obtain ⟨e, he⟩ := hasEntries_of_squareV graph hsq a v ha0 haV hv0 hv
  have hle : k + 1 ≤ path.length := by
    obtain ⟨h, _⟩ := List.getElem?_eq_some_iff.mp ha
    omega
  have hscan : v ∉ path.take (k + 1) ↔ ∀ i, i < k + 1 → path[i]? ≠ some v := by
    rw [mem_take_iff]
    constructor
    · intro h i hi hiv; exact h ⟨i, hi, hiv⟩
    · rintro h ⟨i, hi, hiv⟩; exact h i hi hiv
  unfold isSafe
  simp only [vecGet_pred, ha, he, isSafeLoop_range v path (k + 1) hle, Nat.add_sub_cancel]
  cases e
  · refine ⟨false, by simp, ?_⟩
    constructor
    · intro h; cases h
    · rintro ⟨⟨a2, ha2, he2⟩, _⟩
      have : a = a2 := by simpa [ha] using ha2
      rw [← this, he] at he2
      cases he2
  · refine ⟨decide (v ∉ path.take (k + 1)), by simp, ?_⟩
    rw [decide_eq_true_iff, hscan]
    constructor
    · intro h; exact ⟨⟨a, rfl, he⟩, h⟩
    · intro h; exact h.2

theorem isSafe_iff_witness :
    ∃ b, isSafe 2 { graph := graph1, path := [0, 1, -1, -1, -1] } 2 =
        some (b, { graph := graph1, path := [0, 1, -1, -1, -1] }) ∧
      (b = true ↔ (∃ a, ([0, 1, -1, -1, -1] : List Int)[2 - 1]? = some a ∧
          graphAt graph1 a 2 = some true) ∧
        ∀ i, i < 2 → ([0, 1, -1, -1, -1] : List Int)[i]? ≠ some 2) :=
  isSafe_iff graph1 [0, 1, -1, -1, -1] 2 2 squareV_graph1 (by decide) (by decide)
    (by decide) (by decide) (by
      intro i hi
      interval_cases i
      · exact ⟨0, rfl, by decide, by decide⟩
      · exact ⟨1, rfl, by decide, by decide⟩)

theorem validCycle_entry_range (graph : List (List Bool)) (R : List Int)
    (h : ValidCycle graph R) (i : Nat) (a : Int) (ha : R[i]? = some a) : 0 ≤ a ∧ a < V := by
  obtain ⟨hlen, _, hV, _, hmem, _⟩ := h
  have hi : i < R.length := (List.getElem?_eq_some_iff.mp ha).1
  by_cases hiV : i < V
  · exact (hmem a).mp ((mem_take_iff R V a).mpr ⟨i, hiV, ha⟩)
  · have : i = V := by omega
    subst this
    rw [hV] at ha
    have : a = 0 := by simpa using ha.symm
    subst this
    exact ⟨le_refl _, by simp [V]⟩

/-- Completeness on dense graphs: on a `V x V` matrix in which every two distinct vertices
are adjacent, `hamCycle` returns a sequence of `V + 1` entries, never the empty one, and a
valid cycle where the vector size read by `resizeSolution` is `V` or more. -/
theorem hamCycle_dense_of_size (graph : List (List Bool)) (hsq : SquareV graph)
    (hK : Complete graph) (size : Nat) :
    ∃ R, hamCycle size graph = some (R, graph) ∧ R.length = V + 1 ∧
      (V ≤ size → ValidCycle graph R) := by
  have h01 : Adj graph 0 1 := by simpa using hK 0 (by decide) 1 (by decide) (by decide)
  have h12 : Adj graph 1 2 := by simpa using hK 1 (by decide) 2 (by decide) (by decide)
  have h23 : Adj graph 2 3 := by simpa using hK 2 (by decide) 3 (by decide) (by decide)
  have h34 : Adj graph 3 4 := by simpa using hK 3 (by decide) 4 (by decide) (by decide)
  have h40 : Adj graph 4 0 := by simpa using hK 4 (by decide) 0 (by decide) (by decide)
  have hc : Completes graph 0 [] 0 [1, 2, 3, 4] := by
    simp only [Completes]
    refine ⟨by decide, by decide, h01, by simp, by decide, by decide, by decide, h12,
      by simp, by decide, by decide, by decide, h23, by simp, by decide, by decide,
      by decide, h34, by simp, by decide, h40⟩
  have hvc := (validCycle_iff_completes graph [1, 2, 3, 4] rfl).mpr hc
  obtain ⟨R, h1, h2, h3⟩ :=
    hamCycle_found graph (hasEntries_of_squareV graph hsq) ⟨_, hvc⟩ size
  exact ⟨R, h1, h2, fun hs => (h3 hs).1⟩

/-- C5, where the code departs from it.  On the complete graph on five vertices, with the
vector size read as `0`, `hamCycle` returns `[0, 0, 0, 0, 0, 0]`, which is not a valid
cycle; with the size read as `V` it returns the cycle `[0, 1, 2, 3, 4, 0]`. -/
theorem hamCycle_dense_noncycle :
    SquareV graphComplete ∧ Complete graphComplete ∧
      hamCycle 0 graphComplete = some ([0, 0, 0, 0, 0, 0], graphComplete) ∧
      ¬ ValidCycle graphComplete [0, 0, 0, 0, 0, 0] ∧
      hamCycle V graphComplete = some ([0, 1, 2, 3, 4, 0], graphComplete) :=
  ⟨by unfold SquareV; decide, by unfold Complete; decide, by decide,
    not_validCycle_of_dup graphComplete _ (by decide), by decide⟩

/-- C7.  Isolated vertex: on a symmetric `V x V` matrix in which some vertex `u` (the start
vertex `0` or any other) has `graph[u][w]` and `graph[w][u]` false for every `w`,
`hamCycle` returns the empty sequence, whatever the size of the vector that the cast makes
of `path`. -/
theorem hamCycle_isolated (graph : List (List Bool)) (size : Nat) (hsq : SquareV graph)
    (_hsym : Symmetric graph) (u : Nat) (hu : u < V)
    (hiso : ∀ w : Nat, w < V → graphAt graph u w = some false ∧ graphAt graph w u = some false) :
    hamCycle size graph = some ([], graph) := by
  refine hamCycle_none graph (hasEntries_of_squareV graph hsq) ?_ size
  intro R hR
  have hmem : (u : Int) ∈ R.take V := (hR.2.2.2.2.1 u).mpr ⟨by omega, by omega⟩
  obtain ⟨i, hi, hiu⟩ := (mem_take_iff R V u).mp hmem
  obtain ⟨a, b, ha, hb, hab⟩ := hR.2.2.2.2.2 i hi
  have hau : a = u := by rw [hiu] at ha; simpa using ha.symm
  have hbr := validCycle_entry_range graph R hR (i + 1) b hb
  have hbn : ((b.toNat : Nat) : Int) = b := Int.toNat_of_nonneg hbr.1
  have hfalse := (hiso b.toNat (by omega)).1
  rw [hbn] at hfalse
  rw [hau] at hab
  unfold Adj at hab
  rw [hfalse] at hab
  cases hab

theorem hamCycle_isolated_witness :
    (SquareV graphIsolated4 ∧ Symmetric graphIsolated4 ∧
      (∀ w : Nat, w < V → graphAt graphIsolated4 (4 : Nat) w = some false ∧
        graphAt graphIsolated4 w (4 : Nat) = some false) ∧
      hamCycle 0 graphIsolated4 = some ([], graphIsolated4)) ∧
    (SquareV graphIsolated0 ∧ Symmetric graphIsolated0 ∧
      (∀ w : Nat, w < V → graphAt graphIsolated0 (0 : Nat) w = some false ∧
        graphAt graphIsolated0 w (0 : Nat) = some false) ∧
      hamCycle V graphIsolated0 = some ([], graphIsolated0)) :=
  ⟨⟨by unfold SquareV; decide, by unfold Symmetric; decide, by decide,
      hamCycle_isolated graphIsolated4 0 (by unfold SquareV; decide)
        (by unfold Symmetric; decide) 4 (by decide) (by decide)⟩,
    ⟨by unfold SquareV; decide, by unfold Symmetric; decide, by decide,
      hamCycle_isolated graphIsolated0 V (by unfold SquareV; decide)
        (by unfold Symmetric; decide) 0 (by decide) (by decide)⟩⟩

/-- A cycle through all vertices uses `V` different edges. -/
theorem edgeCount_ge_of_validCycle (graph : List (List Bool)) (hsym : Symmetric graph)
    (R : List Int) (h : ValidCycle graph R) : V ≤ edgeCount graph := by
  have hV5 : V = 5 := rfl
  obtain ⟨hlen, h0, hRV, hnd, _, hadj⟩ := id h
  have hget : ∀ i, i ≤ V → ∃ a, R[i]? = some a ∧ 0 ≤ a ∧ a < V := by
    intro i hi
    have hi2 : i < R.length := by omega
    exact ⟨R[i], List.getElem?_eq_getElem hi2,
      validCycle_entry_range graph R h i _ (List.getElem?_eq_getElem hi2)⟩
  -- the vertex at position `i`, as a natural number
  let r : Nat → Nat := fun i => ((R[i]?).getD 0).toNat
  have hr : ∀ i a, R[i]? = some a → r i = a.toNat := by
    intro i a ha; simp only [r, ha, Option.getD_some]
  have hrV : ∀ i, i ≤ V → r i < V := by
    intro i hi
    obtain ⟨a, ha, ha0, haV⟩ := hget i hi
    rw [hr i a ha]; omega
  have hinj1 : ∀ i j, i < j → j < V → r i ≠ r j := by
    intro i j hij hj heq
    obtain ⟨a, ha, ha0, _⟩ := hget i (by omega)
    obtain ⟨b, hb, hb0, _⟩ := hget j (by omega)
    rw [hr i a ha, hr j b hb] at heq
    have hab : a = b := by omega
    have hlt : j < (R.take V).length := by rw [List.length_take]; omega
    have := List.nodup_iff_getElem?_ne_getElem?.mp hnd i j hij hlt
    rw [List.getElem?_take_of_lt (by omega), List.getElem?_take_of_lt hj, ha, hb, hab] at this
    exact this rfl
  have hinj : ∀ i j, i < V → j < V → r i = r j → i = j := by
    intro i j hi hj heq
    rcases Nat.lt_trichotomy i j with hlt | heq2 | hgt
    · exact absurd heq (hinj1 i j hlt hj)
    · exact heq2
    · exact absurd heq.symm (hinj1 j i hgt hi)
  have hwrap : r V = r 0 := by rw [hr V 0 hRV, hr 0 0 h0]
  have hcyc : ∀ i j, i ≤ V → j ≤ V → r i = r j → i % 5 = j % 5 := by
    intro i j hi hj heq
    by_cases hiV : i = V <;> by_cases hjV : j = V
    · omega
    · have := hinj 0 j (by omega) (by omega) (by rw [← hwrap, ← hiV]; exact heq)
      omega
    · have := hinj i 0 (by omega) (by omega) (by rw [← hwrap, ← hjV]; exact heq)
      omega
    · have := hinj i j (by omega) (by omega) heq
      omega
  have hstep : ∀ i, i < V → Adj graph (r i) (r (i + 1)) := by
    intro i hi
    obtain ⟨a, b, ha, hb, hab⟩ := hadj i hi
    obtain ⟨_, ha2, ha0, _⟩ := hget i (by omega)
    obtain ⟨_, hb2, hb0, _⟩ := hget (i + 1) (by omega)
    rw [ha] at ha2; rw [hb] at hb2
    cases ha2; cases hb2
    rw [hr i a ha, hr (i + 1) b hb, Int.toNat_of_nonneg ha0, Int.toNat_of_nonneg hb0]
    exact hab
  have hne : ∀ i, i < V → r i ≠ r (i + 1) := by
    intro i hi heq
    have := hcyc i (i + 1) (by omega) (by omega) heq
    omega
  let f : Nat → Nat × Nat :=
    fun i => if r i < r (i + 1) then (r i, r (i + 1)) else (r (i + 1), r i)
  have hmaps : ∀ i ∈ Finset.range V, f i ∈ (Finset.range V ×ˢ Finset.range V).filter
      (fun p : Nat × Nat => p.1 < p.2 ∧ Adj graph p.1 p.2) := by
    intro i hi
    have hi2 : i < V := Finset.mem_range.mp hi
    have h1 := hrV i (by omega)
    have h2 := hrV (i + 1) (by omega)
    have h3 := hne i hi2
    have h4 := hstep i hi2
    simp only [Finset.mem_filter, Finset.mem_product, Finset.mem_range, f]
    by_cases hlt : r i < r (i + 1)
    · simp only [hlt, if_true]
      exact ⟨⟨h1, h2⟩, trivial, h4⟩
    · simp only [hlt, if_false]
      refine ⟨⟨h2, h1⟩, by omega, ?_⟩
      unfold Adj at h4 ⊢
      rw [← hsym (r i) h1 (r (i + 1)) h2]
      exact h4
  have hfinj : Set.InjOn f (Finset.range V : Set Nat) := by
    intro i hi j hj hij
    have hi2 : i < V := by simpa using hi
    have hj2 : j < V := by simpa using hj
    have hcases : (r i = r j ∧ r (i + 1) = r (j + 1)) ∨ (r i = r (j + 1) ∧ r (i + 1) = r j) := by
      simp only [f] at hij
      by_cases h1 : r i < r (i + 1) <;> by_cases h2 : r j < r (j + 1) <;>
        simp only [h1, h2, if_true, if_false, Prod.mk.injEq] at hij
      · exact Or.inl hij
      · exact Or.inr ⟨hij.1, hij.2⟩
      · exact Or.inr ⟨hij.2, hij.1⟩
      · exact Or.inl ⟨hij.2, hij.1⟩
    rcases hcases with ⟨h1, _⟩ | ⟨h1, h2⟩
    · exact hinj i j hi2 hj2 h1
    · have e1 := hcyc i (j + 1) (by omega) (by omega) h1
      have e2 := hcyc (i + 1) j (by omega) (by omega) h2
      omega
  calc V = (Finset.range V).card := (Finset.card_range V).symm
    _ ≤ edgeCount graph := Finset.card_le_card_of_injOn f hmaps hfinj

/-- C6.  Correct negative on trees: on a symmetric `V x V` matrix without self-loops whose
graph is a tree (connected, with exactly `V - 1` edges; `V = 5`), `hamCycle` returns the
empty sequence, whatever the size of the vector that the cast makes of `path`. -/
theorem hamCycle_tree (graph : List (List Bool)) (size : Nat) (hsq : SquareV graph)
    (hsym : Symmetric graph) (_hloop : NoSelfLoops graph) (_hconn : Connected graph)
    (hedges : edgeCount graph = V - 1) : hamCycle size graph = some ([], graph) := by
  refine hamCycle_none graph (hasEntries_of_squareV graph hsq) ?_ size
  intro R hR
  have := edgeCount_ge_of_validCycle graph hsym R hR
  have hV5 : V = 5 := rfl
  omega

theorem connected_graphStar : Connected graphStar := by
  have hto : ∀ v : Nat, v < V →
      Relation.ReflTransGen (fun a b : Nat => a < V ∧ b < V ∧ Adj graphStar a b) 0 v := by
    intro v hv
    have hv5 : v < 5 := hv
    by_cases h0 : v = 0
    · subst h0; exact Relation.ReflTransGen.refl
    · refine Relation.ReflTransGen.single ⟨by decide, hv, ?_⟩
      interval_cases v
      · exact absurd rfl h0
      all_goals decide
  have hfrom : ∀ u : Nat, u < V →
      Relation.ReflTransGen (fun a b : Nat => a < V ∧ b < V ∧ Adj graphStar a b) u 0 := by
    intro u hu
    have hu5 : u < 5 := hu
    by_cases h0 : u = 0
    · subst h0; exact Relation.ReflTransGen.refl
    · refine Relation.ReflTransGen.single ⟨hu, by decide, ?_⟩
      interval_cases u
      · exact absurd rfl h0
      all_goals decide
  intro u hu v hv
  exact (hfrom u hu).trans (hto v hv)

theorem hamCycle_tree_witness :
    SquareV graphStar ∧ Symmetric graphStar ∧ NoSelfLoops graphStar ∧ Connected graphStar ∧
      edgeCount graphStar = V - 1 ∧ hamCycle 0 graphStar = some ([], graphStar) ∧
      hamCycle V graphStar = some ([], graphStar) :=
  ⟨by unfold SquareV; decide, by unfold Symmetric; decide, by unfold NoSelfLoops; decide,
    connected_graphStar, by decide,
    hamCycle_tree graphStar 0 (by unfold SquareV; decide) (by unfold Symmetric; decide)
      (by unfold NoSelfLoops; decide) connected_graphStar (by decide),
    hamCycle_tree graphStar V (by unfold SquareV; decide) (by unfold Symmetric; decide)
      (by unfold NoSelfLoops; decide) connected_graphStar (by decide)⟩

/-- The input for C8: `hamCycle` does not reject a matrix that is not symmetric, nor one
that is not square; on both it runs the search and returns a sequence, shown here with the
vector size read as `V` and as `0`. -/
theorem hamCycle_accepts_invalid :
    (SquareV graphDirected ∧ ¬ Symmetric graphDirected ∧
      hamCycle V graphDirected = some ([0, 1, 2, 3, 4, 0], graphDirected) ∧
      hamCycle 0 graphDirected = some ([0, 0, 0, 0, 0, 0], graphDirected)) ∧
    (¬ SquareV graphWide ∧ hamCycle V graphWide = some ([0, 1, 2, 4, 3, 0], graphWide) ∧
      hamCycle 0 graphWide = some ([0, 0, 0, 0, 0, 0], graphWide)) :=
  ⟨⟨by unfold SquareV; decide, by unfold Symmetric; decide, by decide, by decide⟩,
    ⟨by unfold SquareV; decide, by decide, by decide⟩⟩

/-- C8, as the code behaves.  `hamCycle` validates nothing and has no outcome for an
invalid graph: on a matrix that is not symmetric or not square, and in which the entries
`graph[u][v]` with `u, v < V` all exist, it runs the search and, whatever the vector size
read, returns the empty sequence when the reads `graph[a][b]` admit no cycle through all
vertices from `0`, and a sequence of `V + 1` entries when they admit one; the graph is
unchanged. -/
theorem hamCycle_no_validation (graph : List (List Bool)) (size : Nat)
    (hG : HasEntries graph) (_hbad : ¬ Symmetric graph ∨ ¬ SquareV graph) :
    (hamCycle size graph = some ([], graph) ∧ ¬ ∃ R0, ValidCycle graph R0) ∨
      ∃ R, hamCycle size graph = some (R, graph) ∧ R.length = V + 1 ∧
        ∃ R0, ValidCycle graph R0 := by
  by_cases hex : ∃ R0, ValidCycle graph R0
  · obtain ⟨R, h1, h2, _⟩ := hamCycle_found graph hG hex size
    exact Or.inr ⟨R, h1, h2, hex⟩
  · exact Or.inl ⟨hamCycle_none graph hG (fun R0 h0 => hex ⟨R0, h0⟩) size, hex⟩

theorem hasEntries_graphWide : HasEntries graphWide := by
  intro u v hu0 hu hv0 hv
  have hu5 : u < 5 := hu
  have hv5 : v < 5 := hv
  interval_cases u <;> interval_cases v <;> exact ⟨_, rfl⟩

theorem hamCycle_no_validation_witness :
    (HasEntries graphWide ∧ (¬ Symmetric graphWide ∨ ¬ SquareV graphWide) ∧
      ((hamCycle 0 graphWide = some ([], graphWide) ∧ ¬ ∃ R0, ValidCycle graphWide R0) ∨
        ∃ R, hamCycle 0 graphWide = some (R, graphWide) ∧ R.length = V + 1 ∧
          ∃ R0, ValidCycle graphWide R0)) ∧
    (HasEntries graphDirected ∧ (¬ Symmetric graphDirected ∨ ¬ SquareV graphDirected) ∧
      ((hamCycle V graphDirected = some ([], graphDirected) ∧
          ¬ ∃ R0, ValidCycle graphDirected R0) ∨
        ∃ R, hamCycle V graphDirected = some (R, graphDirected) ∧ R.length = V + 1 ∧
          ∃ R0, ValidCycle graphDirected R0)) :=
  ⟨⟨hasEntries_graphWide, Or.inr (by unfold SquareV; decide),
      hamCycle_no_validation graphWide 0 hasEntries_graphWide
        (Or.inr (by unfold SquareV; decide))⟩,
    ⟨hasEntries_of_squareV graphDirected (by unfold SquareV; decide),
      Or.inl (by unfold Symmetric; decide),
      hamCycle_no_validation graphDirected V
        (hasEntries_of_squareV graphDirected (by unfold SquareV; decide))
        (Or.inl (by unfold Symmetric; decide))⟩⟩

/-! ## Frame properties of the search -/

theorem tryVertices_graph (recur : Store → Option (Bool × Store)) (pos : Nat)
    (hrec : ∀ s b s1, recur s = some (b, s1) → s1.graph = s.graph) :
    ∀ (vs : List Int) (s : Store) (b : Bool) (s1 : Store),
      tryVertices recur pos vs s = some (b, s1) → s1.graph = s.graph := by
  intro vs
  induction vs with
  | nil =>
    intro s b s1 h
    simp only [tryVertices, Option.some.injEq, Prod.mk.injEq] at h
    rw [← h.2]
  | cons v vs ih =>
    intro s b s1 h
    cases hs : isSafe v s pos with
    | none => simp [tryVertices, hs] at h
    | some r =>
      obtain ⟨b1, t1⟩ := r
      have ht1 : t1 = s := isSafe_store v s pos b1 t1 hs
      subst ht1
      cases b1 with
      | false =>
        simp only [tryVertices, hs] at h
        exact ih _ b s1 h
      | true =>
        simp only [tryVertices, hs] at h
        cases hset : vecSet t1.path pos v with
        | none => simp [hset] at h
        | some p2 =>
          simp only [hset] at h
          cases hr : recur { t1 with path := p2 } with
          | none => simp [hr] at h
          | some r2 =>
            obtain ⟨b2, t3⟩ := r2
            have hg3 : t3.graph = t1.graph := hrec { t1 with path := p2 } b2 t3 hr
            cases b2 with
            | true =>
              simp only [hr, Option.some.injEq, Prod.mk.injEq] at h
              rw [← h.2]; exact hg3
            | false =>
              simp only [hr] at h
              cases hset2 : vecSet t3.path pos (-1) with
              | none => simp [hset2] at h
              | some p4 =>
                simp only [hset2] at h
                have := ih _ b s1 h
                rw [this]; exact hg3

theorem hamCycleUtilAux_graph :
    ∀ (fuel : Nat) (s : Store) (pos : Nat) (b : Bool) (s1 : Store),
      hamCycleUtilAux fuel s pos = some (b, s1) → s1.graph = s.graph := by
  intro fuel
  induction fuel with
  | zero => intro s pos b s1 h; simp [hamCycleUtilAux] at h
  | succ fuel ih =>
    intro s pos b s1 h
    unfold hamCycleUtilAux at h
    split_ifs at h with hpos
    · split at h
      · cases h
      · split at h
        · cases h
        · split at h
          · cases h
          · simp only [Option.some.injEq, Prod.mk.injEq] at h
            rw [← h.2]
    · exact tryVertices_graph _ pos (fun t b2 t1 ht => ih t (pos + 1) b2 t1 ht)
        candidates s b s1 h

theorem hamCycleOn_graph (raw : List Int) (size : Nat) (graph : List (List Bool))
    (R : List Int) (g : List (List Bool)) (h : hamCycleOn raw size graph = some (R, g)) :
    g = graph := by
  unfold hamCycleOn at h
  split at h
  · cases h
  · split at h
    · cases h
    · split at h
      · cases h
      · rename_i s hs
        simp only [Option.some.injEq, Prod.mk.injEq] at h
        rw [← h.2]
        exact hamCycleUtilAux_graph _ _ _ _ _ hs
      · rename_i s hs
        split at h
        · cases h
        · simp only [Option.some.injEq, Prod.mk.injEq] at h
          rw [← h.2]
          exact hamCycleUtilAux_graph _ _ _ _ _ hs

/-- What does not make `hamCycle` vary: for one vector size, the result does not depend on
what the freshly allocated path buffer holds, a call leaves the matrix unchanged, and a
second call on the matrix the first one left returns the identical result. -/
theorem hamCycleOn_buffer (graph : List (List Bool)) (size : Nat) (raw1 raw2 : List Int)
    (h1 : raw1.length = V) (h2 : raw2.length = V) :
    hamCycleOn raw1 size graph = hamCycleOn raw2 size graph ∧
      ∀ R g, hamCycleOn raw1 size graph = some (R, g) →
        g = graph ∧ hamCycleOn raw2 size g = some (R, g) := by
  have heq : hamCycleOn raw1 size graph = hamCycleOn raw2 size graph := by
    unfold hamCycleOn
    rw [fillLoop_raw raw1 h1, fillLoop_raw raw2 h2]
  refine ⟨heq, ?_⟩
  intro R g hres
  have hg := hamCycleOn_graph raw1 size graph R g hres
  subst hg
  exact ⟨rfl, heq ▸ hres⟩

/-- C9, where the code departs from it.  Two calls of `hamCycle` on the same matrix
`graph1` return different sequences when the words behind `path` differ: the cycle with
the vector size read as `V`, `[0, 0, 0, 0, 0, 0]` with the size read as `0`.  The matrix
is left unchanged by both. -/
theorem hamCycle_not_deterministic :
    hamCycle V graph1 = some ([0, 1, 2, 4, 3, 0], graph1) ∧
      hamCycle 0 graph1 = some ([0, 0, 0, 0, 0, 0], graph1) ∧
      hamCycle V graph1 ≠ hamCycle 0 graph1 :=
  ⟨by decide, by decide, by decide⟩

theorem set_eq_self_of_getElem? (l : List Int) :
    ∀ (i : Nat) (a : Int), l[i]? = some a → l.set i a = l := by
  induction l with
  | nil => intro i a h; simp
  | cons b l ih =>
    intro i a h
    cases i with
    | zero =>
      simp only [List.getElem?_cons_zero, Option.some.injEq] at h
      simp [h]
    | succ j =>
      simp only [List.getElem?_cons_succ] at h
      simp [ih j a h]

theorem vecSet_eq_some (l : List Int) (i : Nat) (x : Int) (p : List Int)
    (h : vecSet l i x = some p) : p = l.set i x := by
  unfold vecSet at h
  split_ifs at h
  simp only [Option.some.injEq] at h
  exact h.symm

theorem tryVertices_restore (recur : Store → Option (Bool × Store)) (pos : Nat)
    (hrec : ∀ s s1, (∀ i, pos + 1 ≤ i → i < V → s.path[i]? = some (-1)) →
      recur s = some (false, s1) → s1 = s) :
    ∀ (vs : List Int) (s s1 : Store), (∀ i, pos ≤ i → i < V → s.path[i]? = some (-1)) →
      pos < V → tryVertices recur pos vs s = some (false, s1) → s1 = s := by
  intro vs
  induction vs with
  | nil =>
    intro s s1 _ _ h
    simp only [tryVertices, Option.some.injEq, Prod.mk.injEq, true_and] at h
    exact h.symm
  | cons v vs ih =>
    intro s s1 hslots hpos h
    cases hs : isSafe v s pos with
    | none => simp [tryVertices, hs] at h
    | some r =>
      obtain ⟨b1, t1⟩ := r
      have ht1 : t1 = s := isSafe_store v s pos b1 t1 hs
      subst ht1
      cases b1 with
      | false =>
        simp only [tryVertices, hs] at h
        exact ih _ s1 hslots hpos h
      | true =>
        simp only [tryVertices, hs] at h
        cases hset : vecSet t1.path pos v with
        | none => simp [hset] at h
        | some p2 =>
          simp only [hset] at h
          have hp2 := vecSet_eq_some _ _ _ _ hset
          cases hr : recur { t1 with path := p2 } with
          | none => simp [hr] at h
          | some r2 =>
            obtain ⟨b2, t3⟩ := r2
            cases b2 with
            | true => simp [hr] at h
            | false =>
              simp only [hr] at h
              have ht3 : t3 = { t1 with path := p2 } := by
                apply hrec _ _ _ hr
                intro i hi1 hi2
                show p2[i]? = some (-1)
                rw [hp2, List.getElem?_set_ne (by omega)]
                exact hslots i (by omega) hi2
              subst ht3
              cases hset2 : vecSet p2 pos (-1) with
              | none => simp [hset2] at h
              | some p4 =>
                simp only [hset2] at h
                have hp4 : p4 = t1.path := by
                  rw [vecSet_eq_some _ _ _ _ hset2, hp2, List.set_set]
                  exact set_eq_self_of_getElem? _ _ _ (hslots pos (le_refl _) hpos)
                subst hp4
                exact ih _ s1 hslots hpos h

theorem hamCycleUtilAux_restore :
    ∀ (fuel : Nat) (s : Store) (pos : Nat) (s1 : Store), pos ≤ V →
      (∀ i, pos ≤ i → i < V → s.path[i]? = some (-1)) →
      hamCycleUtilAux fuel s pos = some (false, s1) → s1 = s := by
  intro fuel
  induction fuel with
  | zero => intro s pos s1 _ _ h; simp [hamCycleUtilAux] at h
  | succ fuel ih =>
    intro s pos s1 hle hslots h
    unfold hamCycleUtilAux at h
    split_ifs at h with hpos
    · split at h
      · cases h
      · split at h
        · cases h
        · split at h
          · cases h
          · simp only [Option.some.injEq, Prod.mk.injEq] at h
            exact h.2.symm
    · exact tryVertices_restore _ pos
        (fun t t1 hslots2 ht => ih t (pos + 1) t1 (by omega) hslots2 ht)
        candidates s s1 hslots (by omega) h

/-- C10.  Backtracking undoes its assignments: for every graph, every `pos` with
`1 <= pos <= V` and every path whose slots `pos .. V-1` all hold `-1`, a call of
`hamCycleUtil` that returns `false` leaves the path equal to the path on entry (and the
graph as it was). -/
theorem hamCycleUtil_restores (graph : List (List Bool)) (path : List Int) (pos : Nat)
    (s1 : Store) (_hpos1 : 1 ≤ pos) (hpos2 : pos ≤ V)
    (hslots : ∀ i, pos ≤ i → i < V → path[i]? = some (-1))
    (hfail : hamCycleUtil { graph := graph, path := path } pos = some (false, s1)) :
    s1 = { graph := graph, path := path } :=
  hamCycleUtilAux_restore _ _ pos s1 hpos2 hslots hfail

theorem hamCycleUtil_restores_witness :
    hamCycleUtil { graph := graphIsolated4, path := [0, 1, -1, -1, -1] } 2 =
        some (false, { graph := graphIsolated4, path := [0, 1, -1, -1, -1] }) ∧
      ({ graph := graphIsolated4, path := [0, 1, -1, -1, -1] } : Store) =
        { graph := graphIsolated4, path := [0, 1, -1, -1, -1] } :=
  ⟨by decide,
    hamCycleUtil_restores graphIsolated4 [0, 1, -1, -1, -1] 2
      { graph := graphIsolated4, path := [0, 1, -1, -1, -1] } (by decide) (by decide)
      (by
        intro i hi1 hi2
        have hi5 : i < 5 := hi2
        interval_cases i <;> rfl)
      (by decide)⟩

/-! ## The terminal check -/

/-- C13.  Terminal check: on a `V x V` matrix and a fully assigned path (all `V` slots hold
vertex indices), `hamCycleUtil(graph, path, V)` returns `true` exactly when
`graph[path[V-1]][path[0]]` is `true`, and the store it leaves is the one it received: no
slot is assigned. -/
theorem hamCycleUtil_terminal (graph : List (List Bool)) (path : List Int)
    (hsq : SquareV graph) (hlen : path.length = V)
    (hfull : ∀ x, x ∈ path → 0 ≤ x ∧ x < V) :
    ∃ b, hamCycleUtil { graph := graph, path := path } V =
        some (b, { graph := graph, path := path }) ∧
      (b = true ↔ ∃ last first, path[V - 1]? = some last ∧ path[0]? = some first ∧
        graphAt graph last first = some true) := by
  have hV5 : V = 5 := rfl
  have h1 : V - 1 < path.length := by omega
  have h0 : 0 < path.length := by omega
  have hl : path[V - 1]? = some path[V - 1] := List.getElem?_eq_getElem h1
  have hf : path[0]? = some path[0] := List.getElem?_eq_getElem h0
  obtain ⟨e, he⟩ := hasEntries_of_squareV graph hsq path[V - 1] path[0]
    (hfull _ (List.getElem_mem h1)).1 (hfull _ (List.getElem_mem h1)).2
    (hfull _ (List.getElem_mem h0)).1 (hfull _ (List.getElem_mem h0)).2
  have hg1 : vecGet path (((V : Nat) : Int) - 1) = some path[V - 1] := by
    have := vecGet_pred path (V - 1)
    rw [show V - 1 + 1 = V by omega] at this
    rw [this, hl]
  have hg0 : vecGet path 0 = some path[0] := by
    have := vecGet_natCast path 0
    simpa [hf] using this
  have hfuel : V + 1 - V = 0 + 1 := by omega
  refine ⟨e == true, ?_, ?_⟩
  · unfold hamCycleUtil
    rw [hfuel]
    simp only [hamCycleUtilAux, if_true, hg1, hg0, he]
  · constructor
    · intro hb
      have : e = true := by simpa using hb
      exact ⟨_, _, hl, hf, this ▸ he⟩
    · rintro ⟨last, first, h2, h3, h4⟩
      rw [hl] at h2; rw [hf] at h3
      cases h2; cases h3
      rw [he] at h4
      cases h4
      rfl

theorem hamCycleUtil_terminal_witness :
    ∃ b, hamCycleUtil { graph := graph1, path := [0, 1, 2, 4, 3] } V =
        some (b, { graph := graph1, path := [0, 1, 2, 4, 3] }) ∧
      (b = true ↔ ∃ last first, ([0, 1, 2, 4, 3] : List Int)[V - 1]? = some last ∧
        ([0, 1, 2, 4, 3] : List Int)[0]? = some first ∧
        graphAt graph1 last first = some true) :=
  hamCycleUtil_terminal graph1 [0, 1, 2, 4, 3] squareV_graph1 (by decide) (by decide)

/-! ## The event log -/

theorem tryVerticesLog_fst (recurL : Store → Option (Bool × Store) × List Event)
    (recur : Store → Option (Bool × Store)) (h : ∀ s, (recurL s).1 = recur s) (pos : Nat) :
    ∀ (vs : List Int) (s : Store),
      (tryVerticesLog recurL pos vs s).1 = tryVertices recur pos vs s := by
  intro vs
  induction vs with
  | nil => intro s; rfl
  | cons v vs ih =>
    intro s
    cases hs : isSafe v s pos with
    | none => simp [tryVerticesLog, tryVertices, hs]
    | some r =>
      obtain ⟨b1, t1⟩ := r
      cases b1 with
      | false => simp only [tryVerticesLog, tryVertices, hs]; exact ih t1
      | true =>
        cases hset : vecSet t1.path pos v with
        | none => simp [tryVerticesLog, tryVertices, hs, hset]
        | some p2 =>
          have hr1 := h { t1 with path := p2 }
          cases hr : recurL { t1 with path := p2 } with
          | mk r log =>
            rw [hr] at hr1
            simp only at hr1
            cases r with
            | none => simp [tryVerticesLog, tryVertices, hs, hset, hr, ← hr1]
            | some r2 =>
              obtain ⟨b2, t3⟩ := r2
              cases b2 with
              | true => simp [tryVerticesLog, tryVertices, hs, hset, hr, ← hr1]
              | false =>
                cases hset2 : vecSet t3.path pos (-1) with
                | none => simp [tryVerticesLog, tryVertices, hs, hset, hr, ← hr1, hset2]
                | some p4 =>
                  simp only [tryVerticesLog, tryVertices, hs, hset, hr, ← hr1, hset2,
                    Prod.map_fst, id]
                  exact ih _

/-- Dropping the events from `hamCycleUtilLog` gives `hamCycleUtilAux`. -/
theorem hamCycleUtilLog_fst :
    ∀ (fuel : Nat) (s : Store) (pos : Nat),
      (hamCycleUtilLog fuel s pos).1 = hamCycleUtilAux fuel s pos := by
  intro fuel
  induction fuel with
  | zero => intro s pos; rfl
  | succ fuel ih =>
    intro s pos
    unfold hamCycleUtilLog hamCycleUtilAux
    by_cases hpos : pos = V
    · simp only [hpos, if_true]
    · simp only [hpos, if_false, Prod.map_fst, id]
      exact tryVerticesLog_fst _ _ (fun t => ih t (pos + 1)) pos candidates s

theorem tryVertices_frame (recur : Store → Option (Bool × Store)) (pos : Nat)
    (hrec : ∀ s b s1, recur s = some (b, s1) →
      s1.path.length = s.path.length ∧ ∀ i, i < pos + 1 → s1.path[i]? = s.path[i]?) :
    ∀ (vs : List Int) (s : Store) (b : Bool) (s1 : Store),
      tryVertices recur pos vs s = some (b, s1) →
        s1.path.length = s.path.length ∧ ∀ i, i < pos → s1.path[i]? = s.path[i]? := by
  intro vs
  induction vs with
  | nil =>
    intro s b s1 h
    simp only [tryVertices, Option.some.injEq, Prod.mk.injEq] at h
    rw [← h.2]
    exact ⟨rfl, fun _ _ => rfl⟩
  | cons v vs ih =>
    intro s b s1 h
    cases hs : isSafe v s pos with
    | none => simp [tryVertices, hs] at h
    | some r =>
      obtain ⟨b1, t1⟩ := r
      have ht1 : t1 = s := isSafe_store v s pos b1 t1 hs
      subst ht1
      cases b1 with
      | false =>
        simp only [tryVertices, hs] at h
        exact ih _ b s1 h
      | true =>
        simp only [tryVertices, hs] at h
        cases hset : vecSet t1.path pos v with
        | none => simp [hset] at h
        | some p2 =>
          simp only [hset] at h
          have hp2 := vecSet_eq_some _ _ _ _ hset
          cases hr : recur { t1 with path := p2 } with
          | none => simp [hr] at h
          | some r2 =>
            obtain ⟨b2, t3⟩ := r2
            obtain ⟨hl3, hpre3⟩ := hrec { t1 with path := p2 } b2 t3 hr
            have hl3b : t3.path.length = t1.path.length := by
              rw [hl3]; show p2.length = _; rw [hp2, List.length_set]
            have hpre3b : ∀ i, i < pos → t3.path[i]? = t1.path[i]? := by
              intro i hi
              rw [hpre3 i (by omega)]
              show p2[i]? = _
              rw [hp2, List.getElem?_set_ne (by omega)]
            cases b2 with
            | true =>
              simp only [hr, Option.some.injEq, Prod.mk.injEq] at h
              rw [← h.2]
              exact ⟨hl3b, hpre3b⟩
            | false =>
              simp only [hr] at h
              cases hset2 : vecSet t3.path pos (-1) with
              | none => simp [hset2] at h
              | some p4 =>
                simp only [hset2] at h
                have hp4 := vecSet_eq_some _ _ _ _ hset2
                obtain ⟨hl5, hpre5⟩ := ih _ b s1 h
                refine ⟨?_, ?_⟩
                · rw [hl5]; show p4.length = _; rw [hp4, List.length_set, hl3b]
                · intro i hi
                  rw [hpre5 i hi]
                  show p4[i]? = _
                  rw [hp4, List.getElem?_set_ne (by omega), hpre3b i hi]

/-- A call of `hamCycleUtil` keeps the number of slots and the slots below `pos`. -/
theorem hamCycleUtilAux_frame :
    ∀ (fuel : Nat) (s : Store) (pos : Nat) (b : Bool) (s1 : Store),
      hamCycleUtilAux fuel s pos = some (b, s1) →
        s1.path.length = s.path.length ∧ ∀ i, i < pos → s1.path[i]? = s.path[i]? := by
  intro fuel
  induction fuel with
  | zero => intro s pos b s1 h; simp [hamCycleUtilAux] at h
  | succ fuel ih =>
    intro s pos b s1 h
    unfold hamCycleUtilAux at h
    split_ifs at h with hpos
    · split at h
      · cases h
      · split at h
        · cases h
        · split at h
          · cases h
          · simp only [Option.some.injEq, Prod.mk.injEq] at h
            rw [← h.2]
            exact ⟨rfl, fun _ _ => rfl⟩
    · exact tryVertices_frame _ pos (fun t b2 t1 ht => ih t (pos + 1) b2 t1 ht)
        candidates s b s1 h

/-- Loop rule for the events of the candidate loop: `I` holds of the store at the head of
every iteration, `P` of every event. -/
theorem tryVerticesLog_events (recurL : Store → Option (Bool × Store) × List Event)
    (pos : Nat) (P : Event → Prop) (I : Store → Prop) (Cv : Int → Prop)
    (hstep : ∀ (v : Int) (s : Store) (p2 : List Int), Cv v → I s →
      isSafe v s pos = some (true, s) → vecSet s.path pos v = some p2 →
      P (Event.write pos v) ∧ (∀ e, e ∈ (recurL { s with path := p2 }).2 → P e) ∧
        (∀ s3 p4, (recurL { s with path := p2 }).1 = some (false, s3) →
          vecSet s3.path pos (-1) = some p4 →
          P (Event.write pos (-1)) ∧ I { s3 with path := p4 })) :
    ∀ (vs : List Int) (s : Store), (∀ v, v ∈ vs → Cv v) → I s →
      ∀ e, e ∈ (tryVerticesLog recurL pos vs s).2 → P e := by
  intro vs
  induction vs with
  | nil => intro s _ _ e he; simp [tryVerticesLog] at he
  | cons v vs ih =>
    intro s hvs hI e he
    have hvs2 : ∀ w, w ∈ vs → Cv w := fun w hw => hvs w (List.mem_cons_of_mem _ hw)
    cases hs : isSafe v s pos with
    | none => simp [tryVerticesLog, hs] at he
    | some r =>
      obtain ⟨b1, t1⟩ := r
      have ht1 : t1 = s := isSafe_store v s pos b1 t1 hs
      subst ht1
      cases b1 with
      | false =>
        simp only [tryVerticesLog, hs] at he
        exact ih _ hvs2 hI e he
      | true =>
        cases hset : vecSet t1.path pos v with
        | none => simp [tryVerticesLog, hs, hset] at he
        | some p2 =>
          obtain ⟨hw, hlog, hback⟩ := hstep v t1 p2 (hvs v (List.mem_cons_self _ _)) hI hs hset
          cases hr : recurL { t1 with path := p2 } with
          | mk r log =>
            rw [hr] at hlog hback
            simp only at hlog hback
            cases r with
            | none =>
              simp only [tryVerticesLog, hs, hset, hr, List.mem_cons] at he
              rcases he with rfl | he
              · exact hw
              · exact hlog e he
            | some r2 =>
              obtain ⟨b2, t3⟩ := r2
              cases b2 with
              | true =>
                simp only [tryVerticesLog, hs, hset, hr, List.mem_cons] at he
                rcases he with rfl | he
                · exact hw
                · exact hlog e he
              | false =>
                cases hset2 : vecSet t3.path pos (-1) with
                | none =>
                  simp only [tryVerticesLog, hs, hset, hr, hset2, List.mem_cons] at he
                  rcases he with rfl | he
                  · exact hw
                  · exact hlog e he
                | some p4 =>
                  obtain ⟨hw2, hI2⟩ := hback t3 p4 rfl hset2
                  simp only [tryVerticesLog, hs, hset, hr, hset2, Prod.map_snd,
                    List.mem_cons, List.mem_append] at he
                  rcases he with (rfl | he) | rfl | he
                  · exact hw
                  · exact hlog e he
                  · exact hw2
                  · exact ih _ hvs2 hI2 e he

theorem hamCycleUtilLog_writes (pos0 : Nat) :
    ∀ (fuel : Nat) (s : Store) (pos : Nat), pos0 ≤ pos →
      ∀ i x, Event.write i x ∈ (hamCycleUtilLog fuel s pos).2 → pos0 ≤ i ∧ x ≠ 0 := by
  intro fuel
  induction fuel with
  | zero => intro s pos _ i x h; simp [hamCycleUtilLog] at h
  | succ fuel ih =>
    intro s pos hpos i x h
    unfold hamCycleUtilLog at h
    by_cases hV : pos = V
    · simp [hV] at h
    · simp only [hV, if_false, Prod.map_snd, List.mem_cons] at h
      rcases h with h | h
      · cases h
      · have := tryVerticesLog_events (fun s1 => hamCycleUtilLog fuel s1 (pos + 1)) pos
          (fun e => ∀ i x, e = Event.write i x → pos0 ≤ i ∧ x ≠ 0) (fun _ => True)
          (fun v => 1 ≤ v ∧ v < V)
          (by
            intro v t p2 hv _ _ _
            refine ⟨?_, ?_, ?_⟩
            · intro i x he
              cases he
              exact ⟨hpos, by omega⟩
            · intro e he i x hex
              subst hex
              exact ih _ (pos + 1) (by omega) i x he
            · intro s3 p4 _ _
              refine ⟨?_, trivial⟩
              intro i x he
              cases he
              exact ⟨hpos, by omega⟩)
          candidates s (fun v hv => (mem_candidates v).mp hv) trivial _ h
        exact this i x rfl

/-- C12.  The placed slots are never touched: for every graph, path and `1 <= pos <= V`, a
call `hamCycleUtil(graph, path, pos)` that returns (`true` or `false`) leaves the slots
`0 .. pos-1` as they were, slot `0` among them, and every assignment the run makes is to a
slot at `pos` or above and never assigns the start vertex `0`. -/
theorem hamCycleUtil_keeps_placed (graph : List (List Bool)) (path : List Int) (pos : Nat)
    (hpos1 : 1 ≤ pos) (_hpos2 : pos ≤ V) :
    (∀ b s1, hamCycleUtil { graph := graph, path := path } pos = some (b, s1) →
        (∀ i, i < pos → s1.path[i]? = path[i]?) ∧ s1.path[0]? = path[0]?) ∧
      ∀ i x, Event.write i x ∈
          (hamCycleUtilLog (V + 1 - pos) { graph := graph, path := path } pos).2 →
        pos ≤ i ∧ 1 ≤ i ∧ x ≠ 0 := by
  constructor
  · intro b s1 h
    have := (hamCycleUtilAux_frame _ _ pos b s1 h).2
    exact ⟨this, this 0 (by omega)⟩
  · intro i x h
    have := hamCycleUtilLog_writes pos _ _ pos (le_refl _) i x h
    exact ⟨this.1, by omega, this.2⟩

theorem hamCycleUtil_keeps_placed_witness :
    hamCycleUtil { graph := graph1, path := [0, 1, -1, -1, -1] } 2 =
        some (true, { graph := graph1, path := [0, 1, 2, 4, 3] }) ∧
      ((∀ b s1, hamCycleUtil { graph := graph1, path := [0, 1, -1, -1, -1] } 2 = some (b, s1) →
          (∀ i, i < 2 → s1.path[i]? = ([0, 1, -1, -1, -1] : List Int)[i]?) ∧
            s1.path[0]? = ([0, 1, -1, -1, -1] : List Int)[0]?) ∧
        ∀ i x, Event.write i x ∈
            (hamCycleUtilLog (V + 1 - 2) { graph := graph1, path := [0, 1, -1, -1, -1] } 2).2 →
          2 ≤ i ∧ 1 ≤ i ∧ x ≠ 0) :=
  ⟨by decide, hamCycleUtil_keeps_placed graph1 [0, 1, -1, -1, -1] 2 (by decide) (by decide)⟩

/-! ## The invariant of the calls -/

theorem getElem?_append_replicate (l : List Int) (k : Nat) (a : Int) (i : Nat)
    (h1 : l.length ≤ i) (h2 : i < l.length + k) : (l ++ List.replicate k a)[i]? = some a := by
  rw [List.getElem?_append_right h1, List.getElem?_replicate_of_lt (by omega)]

theorem chain'_index (R : Int → Int → Prop) (l : List Int) (h : List.Chain' R l) :
    ∀ i, i + 1 < l.length → ∃ a b, l[i]? = some a ∧ l[i + 1]? = some b ∧ R a b := by
  cases l with
  | nil => intro i hi; simp at hi
  | cons a l =>
    intro i hi
    exact (chain_iff_index R l a).mp h i (by simpa using hi)

theorem isSafe_true_placed (graph : List (List Bool)) (init : List Int) (last : Int)
    (t : List Int) (v : Int) (s1 : Store)
    (h : isSafe v { graph := graph, path := init ++ last :: t } (init.length + 1) =
      some (true, s1)) : Adj graph last v ∧ v ∉ init ++ [last] := by
  have hget : (init ++ last :: t)[init.length]? = some last := getElem?_append_length _ _ _
  have hle : init.length + 1 ≤ (init ++ last :: t).length := by simp
  have htake : (init ++ last :: t).take (init.length + 1) = init ++ [last] := by
    rw [List.take_append_eq_append_take]; simp
  unfold isSafe at h
  simp only [vecGet_pred, hget, isSafeLoop_range v _ _ hle, htake] at h
  cases he : graphAt graph last v with
  | none => simp [he] at h
  | some e =>
    cases e with
    | false => simp [he] at h
    | true =>
      refine ⟨he, ?_⟩
      simp only [he] at h
      have h2 : (v ∉ init ∧ ¬ v = last) ∧
          ({ graph := graph, path := init ++ last :: t } : Store) = s1 := by simpa using h
      simpa using h2.1

theorem partialPath_of_placed (graph : List (List Bool)) (init : List Int) (last : Int)
    (n : Nat) (hlen : init.length + 1 + n = V) (hok : PlacedOK graph init last) :
    PartialPath graph { graph := graph, path := init ++ last :: List.replicate n (-1) }
      (init.length + 1) := by
  obtain ⟨hhead, hnd, hrange, hchain⟩ := hok
  have hpath : init ++ last :: List.replicate n (-1) =
      (init ++ [last]) ++ List.replicate n (-1) := by simp
  have hl : (init ++ [last]).length = init.length + 1 := by simp
  have htake : (init ++ last :: List.replicate n (-1)).take (init.length + 1) =
      init ++ [last] := by
    rw [hpath]; exact List.take_left' hl
  have hleft : ∀ i, i < init.length + 1 →
      (init ++ last :: List.replicate n (-1))[i]? = (init ++ [last])[i]? := by
    intro i hi
    rw [hpath, List.getElem?_append_left (by omega)]
  refine ⟨rfl, by omega, by omega, by simp; omega, ?_, ?_, ?_, ?_, ?_⟩
  · show (init ++ last :: List.replicate n (-1))[0]? = some 0
    rw [hleft 0 (by omega), ← List.head?_eq_getElem?]; exact hhead
  · show ((init ++ last :: List.replicate n (-1)).take (init.length + 1)).Nodup
    rw [htake]; exact hnd
  · intro x hx
    have hx2 : x ∈ (init ++ last :: List.replicate n (-1)).take (init.length + 1) := hx
    rw [htake] at hx2
    exact hrange x hx2
  · intro i hi
    obtain ⟨a, b, ha, hb, hab⟩ := chain'_index (Adj graph) _ hchain i (by omega)
    exact ⟨a, b, by show (init ++ last :: List.replicate n (-1))[i]? = _
                    rw [hleft i (by omega), ha],
      by show (init ++ last :: List.replicate n (-1))[i + 1]? = _
         rw [hleft (i + 1) (by omega), hb], hab⟩
  · intro i hi1 hi2
    show (init ++ last :: List.replicate n (-1))[i]? = some (-1)
    rw [hpath]
    exact getElem?_append_replicate _ _ _ _ (by omega) (by omega)

theorem placedOK_extend (graph : List (List Bool)) (init : List Int) (last v : Int)
    (hok : PlacedOK graph init last) (hv : 1 ≤ v ∧ v < V) (hadj : Adj graph last v)
    (hnotin : v ∉ init ++ [last]) : PlacedOK graph (init ++ [last]) v := by
  obtain ⟨hhead, hnd, hrange, hchain⟩ := hok
  refine ⟨?_, ?_, ?_, ?_⟩
  · rw [List.head?_append_of_ne_nil _ (by simp)]; exact hhead
  · rw [List.nodup_append]
    refine ⟨hnd, List.nodup_singleton _, ?_⟩
    intro x hx hxv
    have : x = v := by simpa using hxv
    exact hnotin (this ▸ hx)
  · intro x hx
    rcases List.mem_append.mp hx with hx | hx
    · exact hrange x hx
    · have : x = v := by simpa using hx
      subst this
      exact ⟨by omega, hv.2⟩
  · rw [show init ++ [last] ++ [v] = init ++ last :: v :: [] by simp]
    exact List.chain'_append_cons_cons.mpr ⟨hchain, hadj, List.chain'_singleton v⟩

theorem hamCycleUtilLog_calls (graph : List (List Bool)) :
    ∀ (fuel n : Nat) (init : List Int) (last : Int), init.length + 1 + n = V →
      PlacedOK graph init last →
      ∀ s pos, Event.call s pos ∈
          (hamCycleUtilLog fuel
            { graph := graph, path := init ++ last :: List.replicate n (-1) }
            (init.length + 1)).2 →
        PartialPath graph s pos := by
  intro fuel
  induction fuel with
  | zero =>
    intro n init last hlen hok s pos h
    simp only [hamCycleUtilLog, List.mem_singleton, Event.call.injEq] at h
    rw [h.1, h.2]
    exact partialPath_of_placed graph init last n hlen hok
  | succ fuel ih =>
    intro n init last hlen hok s pos h
    unfold hamCycleUtilLog at h
    by_cases hV : init.length + 1 = V
    · simp only [hV, if_true, List.mem_singleton, Event.call.injEq] at h
      rw [h.1, h.2, ← hV]
      exact partialPath_of_placed graph init last n hlen hok
    · simp only [hV, if_false, Prod.map_snd, List.mem_cons, Event.call.injEq] at h
      rcases h with h | h
      · rw [h.1, h.2]
        exact partialPath_of_placed graph init last n hlen hok
      · obtain ⟨m, rfl⟩ : ∃ m, n = m + 1 := ⟨n - 1, by omega⟩
        have hset : ∀ x y : Int,
            vecSet (init ++ last :: x :: List.replicate m (-1)) (init.length + 1) y =
              some (init ++ last :: y :: List.replicate m (-1)) := by
          intro x y
          have := vecSet_append_length (init ++ [last]) x (List.replicate m (-1)) y
          simpa using this
        have := tryVerticesLog_events (fun s1 => hamCycleUtilLog fuel s1 (init.length + 1 + 1))
          (init.length + 1)
          (fun e => ∀ s pos, e = Event.call s pos → PartialPath graph s pos)
          (fun st => st = { graph := graph,
                            path := init ++ last :: List.replicate (m + 1) (-1) })
          (fun v => 1 ≤ v ∧ v < V)
          (by
            intro v st p2 hv hI hsafe hp2
            subst hI
            obtain ⟨hadj, hnotin⟩ := isSafe_true_placed graph init last _ v _ hsafe
            have hp2eq : p2 = init ++ last :: v :: List.replicate m (-1) := by
              have h1 := hset (-1) v
              rw [← List.replicate_succ] at h1
              rw [h1] at hp2
              exact (Option.some.inj hp2).symm
            subst hp2eq
            have hok2 := placedOK_extend graph init last v hok hv hadj hnotin
            refine ⟨(fun s pos he => by cases he), ?_, ?_⟩
            · intro e he s pos hes
              subst hes
              have := ih m (init ++ [last]) v (by simp; omega) hok2 s pos
              simp only [List.length_append, List.length_singleton, List.append_assoc,
                List.singleton_append] at this
              exact this he
            · intro s3 p4 hfail hp4
              have hfail2 : hamCycleUtilAux fuel
                  { graph := graph, path := init ++ last :: v :: List.replicate m (-1) }
                  (init.length + 1 + 1) = some (false, s3) := by
                rw [← hamCycleUtilLog_fst]; exact hfail
              have hs3 := hamCycleUtilAux_restore fuel _ _ s3 (by omega)
                (by
                  intro i hi1 hi2
                  show (init ++ last :: v :: List.replicate m (-1))[i]? = some (-1)
                  have := getElem?_append_replicate (init ++ [last, v]) m (-1) i
                    (by simp; omega) (by simp; omega)
                  simpa using this) hfail2
              subst hs3
              refine ⟨(fun s pos he => by cases he), ?_⟩
              have h1 := hset v (-1)
              rw [← List.replicate_succ] at h1
              have hp4b : vecSet (init ++ last :: v :: List.replicate m (-1))
                  (init.length + 1) (-1) = some p4 := hp4
              rw [h1] at hp4b
              cases hp4b
              rfl)
          candidates _ (fun v hv => (mem_candidates v).mp hv) rfl _ h
        exact this s pos rfl

/-- C11.  Partial-path invariant: the search that `hamCycle` starts begins with the call at
`pos = 1` on the path `[0, -1, ..., -1]`, and every call of `hamCycleUtil` it reaches, the
initial one and every recursive one, on any graph, satisfies `PartialPath`:
`1 <= pos <= V`, `path[0] = 0`, the slots `0 .. pos-1` hold pairwise distinct vertex
indices with `graph[path[i]][path[i+1]]` true for `i < pos-1`, and the slots `pos .. V-1`
hold `-1`. -/
theorem hamCycle_calls_partialPath (graph : List (List Bool)) (raw : List Int)
    (hraw : raw.length = V) :
    Event.call { graph := graph, path := 0 :: List.replicate (V - 1) (-1) } 1 ∈
        hamCycleOnLog raw graph ∧
      ∀ s pos, Event.call s pos ∈ hamCycleOnLog raw graph → PartialPath graph s pos := by
  have hset : vecSet (List.replicate V (-1 : Int)) 0 0 = some (0 :: List.replicate (V - 1) (-1)) := by
    rfl
  have hlog : hamCycleOnLog raw graph =
      (hamCycleUtilLog (V + 1 - 1)
        { graph := graph, path := 0 :: List.replicate (V - 1) (-1) } 1).2 := by
    unfold hamCycleOnLog
    simp only [fillLoop_raw raw hraw, hset]
  rw [hlog]
  constructor
  · have hV : V + 1 - 1 = 4 + 1 := rfl
    rw [hV]
    unfold hamCycleUtilLog
    simp [V]
  · intro s pos h
    have hok : PlacedOK graph [] 0 := by
      refine ⟨rfl, by simp, ?_, by simp⟩
      intro x hx
      have : x = 0 := by simpa using hx
      subst this
      exact ⟨le_refl _, by simp [V]⟩
    exact hamCycleUtilLog_calls graph (V + 1 - 1) (V - 1) [] 0 (by simp [V]) hok s pos h

theorem hamCycle_calls_partialPath_witness :
    Event.call { graph := graph1, path := [0, 1, 2, 4, -1] } 4 ∈
        hamCycleOnLog [0, 0, 0, 0, 0] graph1 ∧
      PartialPath graph1 { graph := graph1, path := [0, 1, 2, 4, -1] } 4 :=
  ⟨by decide,
    (hamCycle_calls_partialPath graph1 [0, 0, 0, 0, 0] (by decide)).2 _ _ (by decide)⟩

/-! ## The search with arbitrary contents behind the placed slots -/

theorem tryVertices_specAny (graph : List (List Bool)) (hG : HasEntries graph) (first : Int)
    (init : List Int) (last : Int) (n : Nat) (recur : Store → Option (Bool × Store))
    (hlast : 0 ≤ last ∧ last < V)
    (hrec : ∀ (v : Int) (t : List Int), 1 ≤ v → v < V → t.length = n →
      UtilSpecAny graph first (init ++ [last]) v n
        (recur { graph := graph, path := init ++ last :: v :: t })) :
    ∀ vs : List Int, (∀ v, v ∈ vs → 1 ≤ v ∧ v < V) → vs.Pairwise (· < ·) →
      ∀ (x : Int) (t : List Int), t.length = n →
        LoopSpecAny graph first init last n vs
          (tryVertices recur (init.length + 1) vs
            { graph := graph, path := init ++ last :: x :: t }) := by
  intro vs
  induction vs with
  | nil =>
    intro _ _ x t ht
    right
    exact ⟨fun v ext hv => by simp at hv, x, t, ht, by simp [tryVertices]⟩
  | cons v vs ih =>
    intro hvs hpw x t ht
    have hv := hvs v (List.mem_cons_self _ _)
    have ih1 := ih (fun w hw => hvs w (List.mem_cons_of_mem _ hw)) (List.Pairwise.of_cons hpw)
    obtain ⟨b, hb, hbiff⟩ := isSafe_placed graph hG init last (x :: t) v
      hlast ⟨by omega, hv.2⟩
    have hset : ∀ (y z : Int) (u : List Int),
        vecSet (init ++ last :: y :: u) (init.length + 1) z = some (init ++ last :: z :: u) := by
      intro y z u
      have := vecSet_append_length (init ++ [last]) y u z
      simpa using this
    cases b with
    | false =>
      have hno : ¬ (Adj graph last v ∧ v ∉ init ∧ v ≠ last) := fun h => by
        have := hbiff.mpr h; cases this
      have hnov : ∀ ext, ¬ Completes graph first init last (v :: ext) := fun ext hc =>
        hno ⟨hc.2.2.1, hc.2.2.2.1, hc.2.2.2.2.1⟩
      simp only [tryVertices, hb]
      rcases ih1 x t ht with ⟨w, ext, hw, hlen, hc, hmin, hres⟩ | ⟨hnone, hres⟩
      · left
        refine ⟨w, ext, List.mem_cons_of_mem _ hw, hlen, hc, ?_, hres⟩
        intro v2 ext2 hv2 hlen2 hc2
        rcases List.mem_cons.mp hv2 with rfl | hv2
        · exact absurd hc2 (hnov ext2)
        · exact hmin v2 ext2 hv2 hlen2 hc2
      · right
        refine ⟨?_, hres⟩
        intro v2 ext2 hv2 hlen2 hc2
        rcases List.mem_cons.mp hv2 with rfl | hv2
        · exact hnov ext2 hc2
        · exact hnone v2 ext2 hv2 hlen2 hc2
    | true =>
      have hyes : Adj graph last v ∧ v ∉ init ∧ v ≠ last := hbiff.mp rfl
      simp only [tryVertices, hb, hset x v t]
      rcases hrec v t hv.1 hv.2 ht with ⟨ext, hlen, hc, hmin, hres⟩ | ⟨hnone, t2, ht2, hres⟩
      · left
        simp only [hres]
        refine ⟨v, ext, List.mem_cons_self _ _, hlen,
          ⟨hv.1, hv.2, hyes.1, hyes.2.1, hyes.2.2, hc⟩, ?_, by simp⟩
        intro v2 ext2 hv2 hlen2 hc2
        rcases List.mem_cons.mp hv2 with rfl | hv2
        · exact Or.inr ⟨rfl, hmin ext2 hlen2 hc2.2.2.2.2.2⟩
        · exact Or.inl (List.rel_of_pairwise_cons hpw hv2)
      · have hnov : ∀ ext, ext.length = n → ¬ Completes graph first init last (v :: ext) :=
          fun ext hlen hc => hnone ext hlen hc.2.2.2.2.2
        simp only [hres, List.append_assoc, List.singleton_append, hset v (-1) t2]
        rcases ih1 (-1) t2 ht2 with ⟨w, ext, hw, hlen, hc, hmin, hres2⟩ | ⟨hnone2, hres2⟩
        · left
          refine ⟨w, ext, List.mem_cons_of_mem _ hw, hlen, hc, ?_, hres2⟩
          intro v2 ext2 hv2 hlen2 hc2
          rcases List.mem_cons.mp hv2 with rfl | hv2
          · exact absurd hc2 (hnov ext2 hlen2)
          · exact hmin v2 ext2 hv2 hlen2 hc2
        · right
          refine ⟨?_, hres2⟩
          intro v2 ext2 hv2 hlen2 hc2
          rcases List.mem_cons.mp hv2 with rfl | hv2
          · exact hnov ext2 hlen2 hc2
          · exact hnone2 v2 ext2 hv2 hlen2 hc2

theorem hamCycleUtilAux_specAny (graph : List (List Bool)) (hG : HasEntries graph)
    (first : Int) (hfirst : 0 ≤ first ∧ first < V) :
    ∀ (n : Nat) (init : List Int) (last : Int) (t : List Int), init.length + 1 + n = V →
      t.length = n → 0 ≤ last ∧ last < V → (init ++ [last]).head? = some first →
      UtilSpecAny graph first init last n
        (hamCycleUtilAux (n + 1) { graph := graph, path := init ++ last :: t }
          (init.length + 1)) := by
  intro n
  induction n with
  | zero =>
    intro init last t hlen ht hlast hhead
    have : t = [] := List.length_eq_zero.mp ht
    subst this
    rcases hamCycleUtilAux_spec graph hG first hfirst 0 init last hlen hlast hhead with
      ⟨ext, h1, h2, h3, h4⟩ | ⟨h1, h2⟩
    · exact Or.inl ⟨ext, h1, h2, h3, h4⟩
    · exact Or.inr ⟨h1, [], rfl, h2⟩
  | succ n ih =>
    intro init last t hlen ht hlast hhead
    have hne : ¬ init.length + 1 = V := by omega
    obtain ⟨x, u, rfl⟩ : ∃ x u, t = x :: u := by
      cases t with
      | nil => simp at ht
      | cons x u => exact ⟨x, u, rfl⟩
    have hu : u.length = n := by simpa using ht
    simp only [hamCycleUtilAux, hne, if_false]
    have hrec : ∀ (v : Int) (w : List Int), 1 ≤ v → v < V → w.length = n →
        UtilSpecAny graph first (init ++ [last]) v n
          (hamCycleUtilAux (n + 1) { graph := graph, path := init ++ last :: v :: w }
            (init.length + 1 + 1)) := by
      intro v w hv1 hv2 hw
      have := ih (init ++ [last]) v w (by simp; omega) hw ⟨by omega, hv2⟩
        (by rw [List.head?_append_of_ne_nil _ (by simp)]; exact hhead)
      simpa using this
    have hloop := tryVertices_specAny graph hG first init last n
      (fun s1 => hamCycleUtilAux (n + 1) s1 (init.length + 1 + 1)) hlast hrec candidates
      (fun v hv => (mem_candidates v).mp hv) candidates_pairwise x u hu
    rcases hloop with ⟨v, ext, _, hl, hc, hmin, hres⟩ | ⟨hnone, y, w, hw, hres⟩
    · left
      refine ⟨v :: ext, by simp [hl], hc, ?_, hres⟩
      intro ext2 hl2 hc2
      cases ext2 with
      | nil => simp at hl2
      | cons v2 ext2 =>
        exact hmin v2 ext2 ((mem_candidates v2).mpr ⟨hc2.1, hc2.2.1⟩) (by simpa using hl2) hc2
    · right
      refine ⟨?_, y :: w, by simp [hw], hres⟩
      intro ext2 hl2 hc2
      cases ext2 with
      | nil => simp at hl2
      | cons v2 ext2 =>
        exact hnone v2 ext2 ((mem_candidates v2).mpr ⟨hc2.1, hc2.2.1⟩) (by simpa using hl2) hc2

theorem path_split (path : List Int) (pos : Nat) (h1 : 1 ≤ pos) (h2 : pos ≤ path.length) :
    ∃ (init : List Int) (last : Int) (t : List Int),
      path = init ++ last :: t ∧ init.length + 1 = pos ∧ path.take pos = init ++ [last] ∧
        t.length = path.length - pos := by
  have hlt : pos - 1 < path.length := by omega
  refine ⟨path.take (pos - 1), path[pos - 1], path.drop pos, ?_, ?_, ?_, ?_⟩
  · have h := (List.take_append_drop (pos - 1) path).symm
    rw [List.drop_eq_getElem_cons hlt, show pos - 1 + 1 = pos by omega] at h
    exact h
  · rw [List.length_take]; omega
  · have h := List.take_succ (l := path) (n := pos - 1)
    rw [show pos - 1 + 1 = pos by omega, List.getElem?_eq_getElem hlt] at h
    exact h
  · rw [List.length_drop]

/-- A completion behind placed slots `init ++ [last] = 0 :: rest` is the tail of a
completion of the whole path from the start vertex. -/
theorem completes_placed (graph : List (List Bool)) (init : List Int) (last : Int)
    (rest ext : List Int) (hpre : init ++ [last] = 0 :: rest)
    (hnd : (init ++ [last]).Nodup) (hrange : ∀ x, x ∈ init ++ [last] → 0 ≤ x ∧ x < V)
    (hchain : List.Chain' (Adj graph) (init ++ [last])) :
    Completes graph 0 init last ext ↔ Completes graph 0 [] 0 (rest ++ ext) := by
  have hsplit : List.Chain' (Adj graph) ((init ++ [last]) ++ (ext ++ [0])) ↔
      List.Chain (Adj graph) last (ext ++ [0]) := by
    rw [List.chain'_append]
    show _ ↔ List.Chain' (Adj graph) (last :: (ext ++ [0]))
    rw [List.chain'_cons', List.getLast?_concat]
    constructor
    · rintro ⟨_, h2, h3⟩
      exact ⟨fun y hy => h3 last rfl y hy, h2⟩
    · rintro ⟨h1, h2⟩
      refine ⟨hchain, h2, ?_⟩
      intro x hx y hy
      have : x = last := by simpa using hx.symm
      subst this
      exact h1 y hy
  have hfull : List.Chain (Adj graph) 0 (rest ++ ext ++ [0]) ↔
      List.Chain (Adj graph) last (ext ++ [0]) := by
    rw [← hsplit, hpre]
    show _ ↔ List.Chain (Adj graph) 0 (rest ++ (ext ++ [0]))
    rw [List.append_assoc]
  have hnd2 : (0 :: rest).Nodup := hpre ▸ hnd
  have hrest : ∀ v, v ∈ rest → 1 ≤ v ∧ v < V := by
    intro v hv
    have hr := hrange v (by rw [hpre]; exact List.mem_cons_of_mem _ hv)
    have hne : v ≠ 0 := fun h => (List.nodup_cons.mp hnd2).1 (h ▸ hv)
    exact ⟨by omega, hr.2⟩
  have hmem : ∀ v, (v ∉ init ∧ v ≠ last) ↔ (v ≠ 0 ∧ v ∉ rest) := by
    intro v
    have : v ∈ init ++ [last] ↔ v ∈ 0 :: rest := by rw [hpre]
    simp only [List.mem_append, List.mem_singleton, List.mem_cons, List.not_mem_nil,
      or_false] at this
    constructor
    · rintro ⟨h1, h2⟩
      have h3 : ¬ (v = 0 ∨ v ∈ rest) := fun h => (this.mpr h).elim h1 h2
      exact ⟨fun h => h3 (Or.inl h), fun h => h3 (Or.inr h)⟩
    · rintro ⟨h1, h2⟩
      have h3 : ¬ (v ∈ init ∨ v = last) := fun h => (this.mp h).elim h1 h2
      exact ⟨fun h => h3 (Or.inl h), fun h => h3 (Or.inr h)⟩
  rw [completes_iff, completes_iff, hfull]
  constructor
  · rintro ⟨h1, h2, h3, h4⟩
    refine ⟨?_, ?_, ?_, h4⟩
    · intro v hv
      rcases List.mem_append.mp hv with hv | hv
      · exact hrest v hv
      · exact h1 v hv
    · intro v hv
      refine ⟨by simp, ?_⟩
      rcases List.mem_append.mp hv with hv | hv
      · have := (hrest v hv).1; omega
      · exact ((hmem v).mp (h2 v hv)).1
    · rw [List.nodup_append]
      refine ⟨(List.nodup_cons.mp hnd2).2, h3, ?_⟩
      intro x hx1 hx2
      exact ((hmem x).mp (h2 x hx2)).2 hx1
  · rintro ⟨h1, h2, h3, h4⟩
    rw [List.nodup_append] at h3
    refine ⟨fun v hv => h1 v (List.mem_append_right _ hv), ?_, h3.2.1, h4⟩
    intro v hv
    apply (hmem v).mpr
    exact ⟨(h2 v (List.mem_append_right _ hv)).2, fun hr => h3.2.2 hr hv⟩

/-- The facts about a path with valid placed slots `0 .. pos-1` that the search lemmas
need, in the form they need them. -/
theorem placed_of_index (graph : List (List Bool)) (path : List Int) (pos : Nat)
    (hlen : path.length = V) (h1 : 1 ≤ pos) (h2 : pos ≤ V) (h0 : path[0]? = some 0)
    (hnd : (path.take pos).Nodup) (hrange : ∀ x, x ∈ path.take pos → 0 ≤ x ∧ x < V)
    (hadj : ∀ i, i + 1 < pos → ∃ a b, path[i]? = some a ∧ path[i + 1]? = some b ∧
      Adj graph a b) :
    ∃ (init : List Int) (last : Int) (t rest : List Int),
      path = init ++ last :: t ∧ init.length + 1 = pos ∧ path.take pos = init ++ [last] ∧
        init.length + 1 + t.length = V ∧ init ++ [last] = 0 :: rest ∧
        PlacedOK graph init last := by
  obtain ⟨init, last, t, hp, hpos, htake, ht⟩ := path_split path pos h1 (hlen ▸ h2)
  have h00 : (init ++ [last])[0]? = some 0 := by
    rw [← htake, List.getElem?_take_of_lt (by omega)]; exact h0
  have hhead : (init ++ [last]).head? = some 0 := by
    rw [List.head?_eq_getElem?]; exact h00
  obtain ⟨rest, hrest⟩ : ∃ rest, init ++ [last] = 0 :: rest := by
    cases hc : init ++ [last] with
    | nil => simp at hc
    | cons a rest =>
      rw [hc] at hhead
      have : a = 0 := by simpa using hhead
      exact ⟨rest, by rw [this]⟩
  have hrl : rest.length + 1 = pos := by
    have := congrArg List.length hrest
    simp at this
    omega
  have hchain : List.Chain' (Adj graph) (init ++ [last]) := by
    rw [hrest]
    show List.Chain (Adj graph) 0 rest
    rw [chain_iff_index]
    intro i hi
    obtain ⟨a, b, ha, hb, hab⟩ := hadj i (by omega)
    refine ⟨a, b, ?_, ?_, hab⟩
    · rw [← hrest, ← htake, List.getElem?_take_of_lt (by omega)]; exact ha
    · rw [← hrest, ← htake, List.getElem?_take_of_lt (by omega)]; exact hb
  refine ⟨init, last, t, rest, hp, hpos, htake, by omega, hrest, hhead, ?_, ?_, hchain⟩
  · rw [← htake]; exact hnd
  · rw [← htake]; exact hrange

/-- C15.  Exactness of the recursive search on partial paths: on a `V x V` matrix, for
`1 <= pos <= V` and a path of `V` slots whose slots `0 .. pos-1` hold pairwise distinct
vertices with `path[0] = 0` and consecutive slots adjacent, `hamCycleUtil` returns, and
returns `true` exactly when some sequence `q` agrees with the path on the slots
`0 .. pos-1` and is a Hamiltonian cycle (`q` followed by `0` is a `ValidCycle`); when it
returns `true`, the path it leaves is such a sequence. -/
theorem hamCycleUtil_exact (graph : List (List Bool)) (path : List Int) (pos : Nat)
    (hsq : SquareV graph) (hlen : path.length = V) (h1 : 1 ≤ pos) (h2 : pos ≤ V)
    (h0 : path[0]? = some 0) (hnd : (path.take pos).Nodup)
    (hrange : ∀ x, x ∈ path.take pos → 0 ≤ x ∧ x < V)
    (hadj : ∀ i, i + 1 < pos → ∃ a b, path[i]? = some a ∧ path[i + 1]? = some b ∧
      Adj graph a b) :
    ∃ b s1, hamCycleUtil { graph := graph, path := path } pos = some (b, s1) ∧
      (b = true ↔ ∃ q : List Int, q.take pos = path.take pos ∧ ValidCycle graph (q ++ [0])) ∧
      (b = true → s1.graph = graph ∧ s1.path.take pos = path.take pos ∧
        ValidCycle graph (s1.path ++ [0])) := by
  have hG := hasEntries_of_squareV graph hsq
  obtain ⟨init, last, t, rest, hp, hpos, htake, hn, hrest, hok⟩ :=
    placed_of_index graph path pos hlen h1 h2 h0 hnd hrange hadj
  subst hp
  subst hpos
  obtain ⟨hhead, hnd2, hrange2, hchain⟩ := hok
  have hlast : 0 ≤ last ∧ last < V := hrange2 last (by simp)
  have hV5 : V = 5 := rfl
  have hspec := hamCycleUtilAux_specAny graph hG 0 ⟨le_refl _, by simp [V]⟩ t.length init last t
    hn rfl hlast hhead
  have hfuel : V + 1 - (init.length + 1) = t.length + 1 := by omega
  have hrl : rest.length = init.length := by
    have := congrArg List.length hrest
    simp at this
    omega
  have hbridge : ∀ ext : List Int, ext.length = t.length →
      (Completes graph 0 init last ext ↔ ValidCycle graph ((init ++ last :: ext) ++ [0])) := by
    intro ext hext
    rw [completes_placed graph init last rest ext hrest hnd2 hrange2 hchain,
      ← validCycle_iff_completes graph (rest ++ ext) (by simp; omega)]
    have : init ++ last :: ext = 0 :: (rest ++ ext) := by
      rw [← List.cons_append, ← hrest]; simp
    rw [this]
  have htk : ∀ ext : List Int, (init ++ last :: ext).take (init.length + 1) = init ++ [last] := by
    intro ext
    rw [List.take_append_eq_append_take]; simp
  unfold hamCycleUtil
  rw [hfuel]
  rcases hspec with ⟨ext, hl, hc, _, hres⟩ | ⟨hnone, t2, ht2, hres⟩
  · refine ⟨true, _, hres, ?_, ?_⟩
    · refine ⟨fun _ => ⟨init ++ last :: ext, ?_, (hbridge ext hl).mp hc⟩, fun _ => rfl⟩
      rw [htk, htk]
    · intro _
      refine ⟨rfl, ?_, (hbridge ext hl).mp hc⟩
      show (init ++ last :: ext).take (init.length + 1) = _
      rw [htk, htk]
  · refine ⟨false, _, hres, ?_, ?_⟩
    · constructor
      · intro h; cases h
      · rintro ⟨q, hq1, hq2⟩
        exfalso
        have hql : q.length = V := by
          have := hq2.1
          simp at this
          exact this
        have hq : q = init ++ last :: q.drop (init.length + 1) := by
          have := (List.take_append_drop (init.length + 1) q).symm
          rw [hq1, htk] at this
          simpa using this
        have hdl : (q.drop (init.length + 1)).length = t.length := by
          rw [List.length_drop]; omega
        rw [hq] at hq2
        exact hnone _ hdl ((hbridge _ hdl).mpr hq2)
    · intro h; cases h

theorem hamCycleUtil_exact_witness :
    hamCycleUtil { graph := graph1, path := [0, 1, 3, -1, -1] } 3 =
        some (false, { graph := graph1, path := [0, 1, 3, -1, -1] }) ∧
      ∃ b s1, hamCycleUtil { graph := graph1, path := [0, 1, 3, -1, -1] } 3 = some (b, s1) ∧
        (b = true ↔ ∃ q : List Int, q.take 3 = ([0, 1, 3, -1, -1] : List Int).take 3 ∧
          ValidCycle graph1 (q ++ [0])) ∧
        (b = true → s1.graph = graph1 ∧
          s1.path.take 3 = ([0, 1, 3, -1, -1] : List Int).take 3 ∧
          ValidCycle graph1 (s1.path ++ [0])) :=
  ⟨by decide,
    hamCycleUtil_exact graph1 [0, 1, 3, -1, -1] 3 squareV_graph1 (by decide) (by decide)
      (by decide) (by decide) (by decide) (by decide)
      (by
        intro i hi
        have hi2 : i < 2 := by omega
        interval_cases i
        · exact ⟨0, 1, rfl, rfl, by decide⟩
        · exact ⟨1, 3, rfl, rfl, by decide⟩)⟩

/-! ## Termination and bounds -/

theorem tryVertices_mono (recur recur2 : Store → Option (Bool × Store))
    (h : ∀ s r, recur s = some r → recur2 s = some r) (pos : Nat) :
    ∀ (vs : List Int) (s : Store) (r : Bool × Store),
      tryVertices recur pos vs s = some r → tryVertices recur2 pos vs s = some r := by
  intro vs
  induction vs with
  | nil => intro s r hr; simpa [tryVertices] using hr
  | cons v vs ih =>
    intro s r hres
    cases hs : isSafe v s pos with
    | none => simp [tryVertices, hs] at hres
    | some r1 =>
      obtain ⟨b1, t1⟩ := r1
      cases b1 with
      | false =>
        simp only [tryVertices, hs] at hres ⊢
        exact ih _ r hres
      | true =>
        simp only [tryVertices, hs] at hres ⊢
        cases hset : vecSet t1.path pos v with
        | none => simp [hset] at hres
        | some p2 =>
          simp only [hset] at hres ⊢
          cases hr : recur { t1 with path := p2 } with
          | none => simp [hr] at hres
          | some r2 =>
            rw [h _ r2 hr]
            obtain ⟨b2, t3⟩ := r2
            cases b2 with
            | true => simpa [hr] using hres
            | false =>
              simp only [hr] at hres ⊢
              cases hset2 : vecSet t3.path pos (-1) with
              | none => simp [hset2] at hres
              | some p4 =>
                simp only [hset2] at hres ⊢
                exact ih _ r hres

theorem hamCycleUtilAux_succ :
    ∀ (fuel : Nat) (s : Store) (pos : Nat) (r : Bool × Store),
      hamCycleUtilAux fuel s pos = some r → hamCycleUtilAux (fuel + 1) s pos = some r := by
  intro fuel
  induction fuel with
  | zero => intro s pos r h; simp [hamCycleUtilAux] at h
  | succ fuel ih =>
    intro s pos r h
    unfold hamCycleUtilAux at h ⊢
    by_cases hpos : pos = V
    · simpa only [hpos, if_true] using h
    · simp only [hpos, if_false] at h ⊢
      exact tryVertices_mono _ _ (fun t r2 ht => ih t (pos + 1) r2 ht) pos candidates s r h

/-- A result obtained within some nesting depth is the result for every larger depth. -/
theorem hamCycleUtilAux_mono (fuel : Nat) (s : Store) (pos : Nat) (r : Bool × Store)
    (h : hamCycleUtilAux fuel s pos = some r) :
    ∀ fuel2, fuel ≤ fuel2 → hamCycleUtilAux fuel2 s pos = some r := by
  intro fuel2 hle
  induction fuel2 with
  | zero =>
    have : fuel = 0 := by omega
    subst this
    exact h
  | succ k ih =>
    by_cases hk : fuel ≤ k
    · exact hamCycleUtilAux_succ k s pos r (ih hk)
    · have : fuel = k + 1 := by omega
      subst this
      exact h

theorem vecSet_lt {l : List Int} {i : Nat} {x : Int} {p : List Int}
    (h : vecSet l i x = some p) : i < l.length := by
  unfold vecSet at h
  split_ifs at h with hlt
  exact hlt

theorem hamCycleUtilLog_bounds (pos0 : Nat) :
    ∀ (fuel : Nat) (s : Store) (pos : Nat), s.path.length = V → pos0 ≤ pos → pos ≤ V →
      ∀ e, e ∈ (hamCycleUtilLog fuel s pos).2 →
        (∀ s1 p, e = Event.call s1 p → pos0 ≤ p ∧ p ≤ V ∧ s1.path.length = V) ∧
          (∀ i x, e = Event.write i x → i < V) := by
  intro fuel
  induction fuel with
  | zero =>
    intro s pos hlen h0 hV e he
    simp only [hamCycleUtilLog, List.mem_singleton] at he
    subst he
    refine ⟨?_, fun i x h => by cases h⟩
    intro s1 p h
    cases h
    exact ⟨h0, hV, hlen⟩
  | succ fuel ih =>
    intro s pos hlen h0 hV e he
    have hself : (∀ s1 p, Event.call s pos = Event.call s1 p →
        pos0 ≤ p ∧ p ≤ V ∧ s1.path.length = V) ∧
        (∀ i x, Event.call s pos = Event.write i x → i < V) := by
      refine ⟨?_, fun i x h => by cases h⟩
      intro s1 p h
      cases h
      exact ⟨h0, hV, hlen⟩
    unfold hamCycleUtilLog at he
    by_cases hpos : pos = V
    · simp only [hpos, if_true, List.mem_singleton] at he
      subst he
      rw [hpos] at hself
      exact hself
    · simp only [hpos, if_false, Prod.map_snd, List.mem_cons] at he
      rcases he with he | he
      · subst he; exact hself
      · exact tryVerticesLog_events (fun s1 => hamCycleUtilLog fuel s1 (pos + 1)) pos
          (fun e => (∀ s1 p, e = Event.call s1 p → pos0 ≤ p ∧ p ≤ V ∧ s1.path.length = V) ∧
            (∀ i x, e = Event.write i x → i < V))
          (fun st => st.path.length = V) (fun _ => True)
          (by
            intro v st p2 _ hI _ hp2
            have hlt : pos < V := hI ▸ vecSet_lt hp2
            have hp2l : p2.length = V := by
              rw [vecSet_eq_some _ _ _ _ hp2, List.length_set]; exact hI
            have hw : ∀ y : Int,
                (∀ s1 p, Event.write pos y = Event.call s1 p →
                  pos0 ≤ p ∧ p ≤ V ∧ s1.path.length = V) ∧
                (∀ i x, Event.write pos y = Event.write i x → i < V) := by
              intro y
              refine ⟨(fun s1 p h => by cases h), ?_⟩
              intro i x h
              cases h
              exact hlt
            refine ⟨hw v, ?_, ?_⟩
            · intro e2 he2
              exact ih _ (pos + 1) hp2l (by omega) (by omega) e2 he2
            · intro s3 p4 hfail hp4
              refine ⟨hw (-1), ?_⟩
              have hfail2 : hamCycleUtilAux fuel { st with path := p2 } (pos + 1) =
                  some (false, s3) := by
                rw [← hamCycleUtilLog_fst]; exact hfail
              have hl3 := (hamCycleUtilAux_frame _ _ _ _ _ hfail2).1
              show p4.length = V
              rw [vecSet_eq_some _ _ _ _ hp4, List.length_set, hl3]
              exact hp2l)
          candidates s (fun _ _ => trivial) hlen e he

/-- The input for C14: every slot of the path holds `-1`, which the claim admits.  The
call at `pos = 1` starts with `isSafe(1, graph, path, 1)`, which reads `path[0] = -1` and
then the row `graph[-1]`, an index outside the matrix; no nesting depth gives the call a
result. -/
theorem hamCycleUtil_reads_outside :
    SquareV graph1 ∧ ([-1, -1, -1, -1, -1] : List Int).length = V ∧
      (∀ x, x ∈ ([-1, -1, -1, -1, -1] : List Int) → (0 ≤ x ∧ x < V) ∨ x = -1) ∧
      vecGet ([-1, -1, -1, -1, -1] : List Int) (((1 : Nat) : Int) - 1) = some (-1) ∧
      vecGet graph1 (-1) = none ∧
      isSafe 1 { graph := graph1, path := [-1, -1, -1, -1, -1] } 1 = none ∧
      hamCycleUtil { graph := graph1, path := [-1, -1, -1, -1, -1] } 1 = none ∧
      hamCycleUtilAux (V + V) { graph := graph1, path := [-1, -1, -1, -1, -1] } 1 = none :=
  ⟨squareV_graph1, by decide, by decide, by decide, by decide, by decide, by decide,
    by decide⟩

/-- C14, as the code behaves.  On a `V x V` matrix, for `1 <= pos <= V` and a path of `V`
slots holding vertex indices or `-1` whose slots `0 .. pos-1` hold vertex indices:
the call `hamCycleUtil(graph, path, pos)` returns a result, so it terminates and every
read and write it makes is inside the path and the matrix; the `V + 1 - pos <= V` nesting
levels it is given are never exceeded, a larger allowance changes nothing; every call of
the run is at a position from `pos` to `V` on a path of `V` slots; and every assignment is
to a slot below `V`. -/
theorem hamCycleUtil_terminates (graph : List (List Bool)) (path : List Int) (pos : Nat)
    (hsq : SquareV graph) (hlen : path.length = V)
    (_hslots : ∀ x, x ∈ path → (0 ≤ x ∧ x < V) ∨ x = -1) (h1 : 1 ≤ pos) (h2 : pos ≤ V)
    (hplaced : ∀ x, x ∈ path.take pos → 0 ≤ x ∧ x < V) :
    (∃ b s1, hamCycleUtil { graph := graph, path := path } pos = some (b, s1)) ∧
      V + 1 - pos ≤ V ∧
      (∀ fuel, V + 1 - pos ≤ fuel →
        hamCycleUtilAux fuel { graph := graph, path := path } pos =
          hamCycleUtil { graph := graph, path := path } pos) ∧
      (∀ s p, Event.call s p ∈
          (hamCycleUtilLog (V + 1 - pos) { graph := graph, path := path } pos).2 →
        pos ≤ p ∧ p ≤ V ∧ s.path.length = V) ∧
      ∀ i x, Event.write i x ∈
          (hamCycleUtilLog (V + 1 - pos) { graph := graph, path := path } pos).2 → i < V := by
  have hG := hasEntries_of_squareV graph hsq
  have hres : ∃ b s1, hamCycleUtil { graph := graph, path := path } pos = some (b, s1) := by
    obtain ⟨init, last, t, hp, hpos, htake, ht⟩ := path_split path pos h1 (hlen ▸ h2)
    obtain ⟨first, rest, hfr⟩ : ∃ first rest, init ++ [last] = first :: rest := by
      cases hc : init ++ [last] with
      | nil => simp at hc
      | cons a r => exact ⟨a, r, rfl⟩
    have hfirst : 0 ≤ first ∧ first < V := hplaced first (by rw [htake, hfr]; simp)
    have hlast : 0 ≤ last ∧ last < V := hplaced last (by rw [htake]; simp)
    have hn : init.length + 1 + t.length = V := by omega
    have hspec := hamCycleUtilAux_specAny graph hG first hfirst t.length init last t hn rfl
      hlast (by rw [hfr]; rfl)
    have hfuel : V + 1 - pos = t.length + 1 := by omega
    unfold hamCycleUtil
    rw [hfuel, hp, ← hpos]
    rcases hspec with ⟨ext, _, _, _, hr⟩ | ⟨_, t2, _, hr⟩
    · exact ⟨_, _, hr⟩
    · exact ⟨_, _, hr⟩
  refine ⟨hres, by omega, ?_, ?_, ?_⟩
  · intro fuel hfuel
    obtain ⟨b, s1, hr⟩ := hres
    rw [hr]
    exact hamCycleUtilAux_mono _ _ _ _ hr fuel hfuel
  · intro s p h
    exact (hamCycleUtilLog_bounds pos _ _ pos hlen (le_refl _) h2 _ h).1 s p rfl
  · intro i x h
    exact (hamCycleUtilLog_bounds pos _ _ pos hlen (le_refl _) h2 _ h).2 i x rfl

theorem hamCycleUtil_terminates_witness :
    (∃ b s1, hamCycleUtil { graph := graph1, path := [0, 3, 2, -1, 1] } 2 = some (b, s1)) ∧
      V + 1 - 2 ≤ V ∧
      (∀ fuel, V + 1 - 2 ≤ fuel →
        hamCycleUtilAux fuel { graph := graph1, path := [0, 3, 2, -1, 1] } 2 =
          hamCycleUtil { graph := graph1, path := [0, 3, 2, -1, 1] } 2) ∧
      (∀ s p, Event.call s p ∈
          (hamCycleUtilLog (V + 1 - 2) { graph := graph1, path := [0, 3, 2, -1, 1] } 2).2 →
        2 ≤ p ∧ p ≤ V ∧ s.path.length = V) ∧
      ∀ i x, Event.write i x ∈
          (hamCycleUtilLog (V + 1 - 2) { graph := graph1, path := [0, 3, 2, -1, 1] } 2).2 →
        i < V :=
  hamCycleUtil_terminates graph1 [0, 3, 2, -1, 1] 2 squareV_graph1 (by decide) (by decide)
    (by decide) (by decide) (by decide)

/-! ## The diagonal of the matrix -/

theorem adj_congr_offDiagonal (g1 g2 : List (List Bool))
    (hoff : ∀ u : Nat, u < V → ∀ v : Nat, v < V → u ≠ v → graphAt g1 u v = graphAt g2 u v)
    (a b : Int) (ha : 0 ≤ a ∧ a < V) (hb : 0 ≤ b ∧ b < V) (hab : a ≠ b) :
    Adj g1 a b ↔ Adj g2 a b := by
  have h := hoff a.toNat (by omega) b.toNat (by omega) (by omega)
  rw [Int.toNat_of_nonneg ha.1, Int.toNat_of_nonneg hb.1] at h
  unfold Adj
  rw [h]

theorem completes_congr_offDiagonal (g1 g2 : List (List Bool))
    (hoff : ∀ u : Nat, u < V → ∀ v : Nat, v < V → u ≠ v → graphAt g1 u v = graphAt g2 u v)
    (ext : List Int) :
    ∀ (init : List Int) (last : Int), 0 ≤ last ∧ last < V → (ext ≠ [] ∨ last ≠ 0) →
      (Completes g1 0 init last ext ↔ Completes g2 0 init last ext) := by
  induction ext with
  | nil =>
    intro init last hlast hne
    have hl0 : last ≠ 0 := by
      rcases hne with h | h
      · exact absurd rfl h
      · exact h
    simp only [Completes]
    exact adj_congr_offDiagonal g1 g2 hoff last 0 hlast ⟨le_refl _, by simp [V]⟩ hl0
  | cons v ext ih =>
    intro init last hlast _
    simp only [Completes]
    constructor
    · rintro ⟨h1, h2, h3, h4, h5, h6⟩
      exact ⟨h1, h2,
        (adj_congr_offDiagonal g1 g2 hoff last v hlast ⟨by omega, h2⟩ (Ne.symm h5)).mp h3,
        h4, h5, (ih (init ++ [last]) v ⟨by omega, h2⟩ (Or.inr (by omega))).mp h6⟩
    · rintro ⟨h1, h2, h3, h4, h5, h6⟩
      exact ⟨h1, h2,
        (adj_congr_offDiagonal g1 g2 hoff last v hlast ⟨by omega, h2⟩ (Ne.symm h5)).mpr h3,
        h4, h5, (ih (init ++ [last]) v ⟨by omega, h2⟩ (Or.inr (by omega))).mpr h6⟩

theorem lexLE_antisymm (l : List Int) :
    ∀ m : List Int, l.length = m.length → LexLE l m → LexLE m l → l = m := by
  induction l with
  | nil =>
    intro m hm _ _
    exact (List.length_eq_zero.mp hm.symm).symm
  | cons a l ih =>
    intro m hm h1 h2
    cases m with
    | nil => simp at hm
    | cons b m =>
      rcases h1 with h1 | ⟨hab, h1⟩
      · rcases h2 with h2 | ⟨hba, _⟩
        · omega
        · omega
      · rcases h2 with h2 | ⟨_, h2⟩
        · omega
        · rw [hab, ih m (by simpa using hm) h1 h2]

/-- Self-loops are irrelevant to the search: two `V x V` matrices that agree on every
entry `graph[u][v]` with `u != v` give the same returned sequence when the vector size read
is the same in both calls; each call returns its own matrix unchanged. -/
theorem hamCycle_ignores_diagonal_of_size (g1 g2 : List (List Bool)) (size : Nat)
    (h1 : SquareV g1) (h2 : SquareV g2)
    (hoff : ∀ u : Nat, u < V → ∀ v : Nat, v < V → u ≠ v → graphAt g1 u v = graphAt g2 u v) :
    ∃ R, hamCycle size g1 = some (R, g1) ∧ hamCycle size g2 = some (R, g2) := by
  have hcongr : ∀ ext : List Int, ext.length = V - 1 →
      (Completes g1 0 [] 0 ext ↔ Completes g2 0 [] 0 ext) := by
    intro ext hl
    apply completes_congr_offDiagonal g1 g2 hoff ext [] 0 ⟨le_refl _, by simp [V]⟩
    left
    intro h
    subst h
    simp [V] at hl
  rcases hamCycle_spec g1 (hasEntries_of_squareV g1 h1) size with
    ⟨e1, hl1, hc1, hmin1, hr1⟩ | ⟨hn1, hr1⟩ <;>
  rcases hamCycle_spec g2 (hasEntries_of_squareV g2 h2) size with
    ⟨e2, hl2, hc2, hmin2, hr2⟩ | ⟨hn2, hr2⟩
  · have h12 := hmin1 e2 hl2 ((hcongr e2 hl2).mpr hc2)
    have h21 := hmin2 e1 hl1 ((hcongr e1 hl1).mp hc1)
    have : e1 = e2 := lexLE_antisymm e1 e2 (by rw [hl1, hl2]) h12 h21
    subst this
    exact ⟨_, hr1, hr2⟩
  · exact absurd ((hcongr e1 hl1).mp hc1) (hn2 e1 hl1)
  · exact absurd ((hcongr e2 hl2).mpr hc2) (hn1 e2 hl2)
  · exact ⟨[], hr1, hr2⟩

/-- C16, where the code departs from it.  `graph1` and `graph1Loops` agree on every
entry off the diagonal, yet the two calls return different sequences when the words behind
`path` differ: the cycle on `graph1` with the vector size read as `V`, and
`[0, 1, 2, 4, 0, 0]` on `graph1Loops` with the size read as `4`. -/
theorem hamCycle_diagonal_differs :
    SquareV graph1 ∧ SquareV graph1Loops ∧
      (∀ u : Nat, u < V → ∀ v : Nat, v < V → u ≠ v →
        graphAt graph1 u v = graphAt graph1Loops u v) ∧
      hamCycle V graph1 = some ([0, 1, 2, 4, 3, 0], graph1) ∧
      hamCycle 4 graph1Loops = some ([0, 1, 2, 4, 0, 0], graph1Loops) ∧
      ([0, 1, 2, 4, 3, 0] : List Int) ≠ [0, 1, 2, 4, 0, 0] :=
  ⟨squareV_graph1, by unfold SquareV; decide, by decide, by decide, by decide, by decide⟩

end Backtracking.HamiltonianCycle

namespace ReverseQueue

theorem drainLoop_small (size : Nat) (hsize : size < 2 ^ 32) (myQueue : List Int) :
    ∀ (fuel iterator : Nat) (myStack : List Int), iterator + myQueue.length = size →
      myQueue.length < fuel →
      drainLoop size fuel iterator myQueue myStack = some ([], myQueue.reverse ++ myStack) := by
  induction myQueue with
  | nil =>
    intro fuel iterator myStack hit hfuel
    obtain ⟨k, rfl⟩ : ∃ k, fuel = k + 1 := ⟨fuel - 1, by simp at hfuel; omega⟩
    have : ¬ iterator < size := by simp at hit; omega
    simp [drainLoop, this]
  | cons x rest ih =>
    intro fuel iterator myStack hit hfuel
    obtain ⟨k, rfl⟩ : ∃ k, fuel = k + 1 := ⟨fuel - 1, by simp at hfuel; omega⟩
    simp only [List.length_cons] at hit hfuel
    have hlt : iterator < size := by omega
    have hmod : (iterator + 1) % 2 ^ 32 = iterator + 1 := Nat.mod_eq_of_lt (by omega)
    simp only [drainLoop, hlt, if_true, hmod]
    rw [ih k (iterator + 1) (x :: myStack) (by omega) (by omega)]
    simp

theorem refillLoop_small (size : Nat) (hsize : size < 2 ^ 32) (myStack : List Int) :
    ∀ (fuel iterator2 : Nat) (newQueue : List Int), iterator2 + myStack.length = size →
      myStack.length < fuel →
      refillLoop size fuel iterator2 myStack newQueue = some ([], newQueue ++ myStack) := by
  induction myStack with
  | nil =>
    intro fuel iterator2 newQueue hit hfuel
    obtain ⟨k, rfl⟩ : ∃ k, fuel = k + 1 := ⟨fuel - 1, by simp at hfuel; omega⟩
    have : ¬ iterator2 < size := by simp at hit; omega
    simp [refillLoop, this]
  | cons x rest ih =>
    intro fuel iterator2 newQueue hit hfuel
    obtain ⟨k, rfl⟩ : ∃ k, fuel = k + 1 := ⟨fuel - 1, by simp at hfuel; omega⟩
    simp only [List.length_cons] at hit hfuel
    have hlt : iterator2 < size := by omega
    have hmod : (iterator2 + 1) % 2 ^ 32 = iterator2 + 1 := Nat.mod_eq_of_lt (by omega)
    simp only [refillLoop, hlt, if_true, hmod]
    rw [ih k (iterator2 + 1) (newQueue ++ [x]) (by omega) (by omega)]
    simp

/-- On a queue of fewer than `2 ^ 32` elements `reverseQueue` returns the reversed queue,
and reversing twice gives the queue back. -/
theorem reverseQueue_small (myQueue : List Int) (h : myQueue.length < 2 ^ 32) :
    reverseQueue myQueue = some myQueue.reverse ∧
      (reverseQueue myQueue).bind reverseQueue = some myQueue := by
  have hrev : ∀ q : List Int, q.length < 2 ^ 32 → reverseQueue q = some q.reverse := by
    intro q hq
    unfold reverseQueue
    simp only [drainLoop_small q.length hq q (q.length + 1) 0 [] (by simp) (by omega),
      List.append_nil]
    simp only [refillLoop_small q.length hq q.reverse (q.length + 1) 0 [] (by simp)
      (by simp), List.nil_append]
  refine ⟨hrev myQueue h, ?_⟩
  rw [hrev myQueue h, Option.some_bind, hrev _ (by simpa using h), List.reverse_reverse]

/-- Once `size` is `2 ^ 32` or more, the 32-bit counter stays below it for ever: the first
loop never leaves through its condition, whatever number of iterations it is allowed. -/
theorem drainLoop_large (size : Nat) (hsize : 2 ^ 32 ≤ size) :
    ∀ (fuel iterator : Nat) (myQueue myStack : List Int), iterator < 2 ^ 32 →
      drainLoop size fuel iterator myQueue myStack = none := by
  intro fuel
  induction fuel with
  | zero => intro iterator myQueue myStack _; rfl
  | succ fuel ih =>
    intro iterator myQueue myStack hit
    have hlt : iterator < size := by omega
    cases myQueue with
    | nil => simp [drainLoop, hlt]
    | cons x rest =>
      simp only [drainLoop, hlt, if_true]
      exact ih _ rest _ (Nat.mod_lt _ (by omega))

/-- On a queue of `2 ^ 32` elements or more `reverseQueue` has no result. -/
theorem reverseQueue_large (myQueue : List Int) (h : 2 ^ 32 ≤ myQueue.length) :
    reverseQueue myQueue = none := by
  unfold reverseQueue
  have h0 : 0 < 2 ^ 32 := by norm_num
  simp only [drainLoop_large myQueue.length h (myQueue.length + 1) 0 myQueue [] h0]

theorem length_replicate_wrap :
    2 ^ 32 ≤ (List.replicate 4294967296 (0 : Int)).length := by
  rw [List.length_replicate]
  exact Nat.le_of_eq (by norm_num)

/-- C17, where the code departs from it.  `reverseQueue` reverses the queues of the
self-test's size and the empty queue, but on a queue of `2 ^ 32 = 4294967296` elements it
has no result: the `unsigned int` counter wraps to `0` before it reaches `size`, and the
first loop goes on to call `front()` on the queue it has emptied. -/
theorem reverseQueue_wraps :
    reverseQueue [1, 2, 3, 4, 5] = some [5, 4, 3, 2, 1] ∧ reverseQueue [] = some [] ∧
      reverseQueue (List.replicate 4294967296 0) = none :=
  ⟨by decide, by decide, reverseQueue_large _ length_replicate_wrap⟩

end ReverseQueue
